import Mathlib

/-!
# lunar-pattern-matcher: a shallow embedding of `lunar_pattern_matcher.h`

Conventions of the embedding.

* A `char` / `uint8_t` is a natural number (its unsigned value, `0 .. 255`).
* A C string or a `char` array is a `List Nat`; reading index `k` is
  `getD k 0`, so the element one past the stored characters is the NUL
  terminator.  The arrays built by `CIDAToCodePattern` are stored with their
  zero-initialised tail, so their terminator is explicit.
* `size_t` is 64 bit wide (`_M_X64`); arithmetic that can wrap is written with
  an explicit `% SIZE_MOD`.
* The search buffer is a `List Nat` read through `data[i]?`; a read outside the
  buffer is the outcome `FindResult.outOfBounds`.
* Loops that the source does not bound are run on fuel: `none` means that the
  fuel ran out, `some r` that the code returned `r`.
-/

namespace lpm

/-! ## Machine constants and character codes -/

/-- Modulus of `size_t` arithmetic on the 64 bit target. -/
def SIZE_MOD : Nat := 18446744073709551616

/-- The macro `PATTERN_ITERRATOR_MAX_INT` for `_M_X64`: `0xffffffffffffffff`. -/
def PATTERN_ITERRATOR_MAX_INT : Nat := 18446744073709551615

/-- Modulus of `unsigned long` arithmetic (32 bit on the LLP64 targets the
header is written for; only the low byte of a parsed value is ever used). -/
def ULONG_MOD : Nat := 4294967296

/-- Character code of the space. -/
abbrev chSpace : Nat := 32
/-- Character code of the horizontal tab. -/
abbrev chTab : Nat := 9
/-- Character code of the question mark. -/
abbrev chQ : Nat := 63
/-- Character code of the lower case letter x, the mask entry of an exact slot. -/
abbrev chX : Nat := 120
/-- Character code of the upper case letter X. -/
abbrev chBigX : Nat := 88
/-- Character code of the digit zero. -/
abbrev chZero : Nat := 48

/-- The characters of a string literal as character codes (without terminator). -/
def cstr (s : String) : List Nat := s.toList.map Char.toNat

/-! ## `StrlenCompileTime` and `StrtoulCompileTime` -/

/-- Embedding of `StrlenCompileTime`: the number of characters before the first NUL. -/
def StrlenCompileTime : List Nat → Nat
  | [] => 0
  | c :: rest => if c = 0 then 0 else StrlenCompileTime rest + 1

/-- The first loop of `StrtoulCompileTime`: the number of leading spaces and tabs. -/
def skipLeadingWs : List Nat → Nat
  | [] => 0
  | c :: rest => if c = chSpace ∨ c = chTab then skipLeadingWs rest + 1 else 0

/-- The digit value the three range tests of `StrtoulCompileTime` assign to a
character, `none` for the final `else` branch (the `break`). -/
def hexDigit (c : Nat) : Option Nat :=
  if 48 ≤ c ∧ c ≤ 57 then some (c - 48)
  else if 97 ≤ c ∧ c ≤ 102 then some (c - 97 + 10)
  else if 65 ≤ c ∧ c ≤ 70 then some (c - 65 + 10)
  else none

/-- The digit loop of `StrtoulCompileTime`, run on the characters from index `i`
on: returns the accumulated `result` and the index at which the loop stopped. -/
def digitLoop (base : Nat) : List Nat → Nat → Nat → Nat × Nat
  | [], result, i => (result, i)
  | c :: rest, result, i =>
    if c = 0 then (result, i)
    else
      match hexDigit c with
      | none => (result, i)
      | some digit =>
        if digit ≥ base then (result, i)
        else digitLoop base rest ((result * base + digit) % ULONG_MOD) (i + 1)

/-- Embedding of `StrtoulCompileTime(str, endptr, base)`: the returned value and
the index (relative to `str`) stored through `endptr`. -/
def StrtoulCompileTime (str : List Nat) (base : Nat) : Nat × Nat :=
  let i0 := skipLeadingWs str
  let i1 :=
    if base = 16 ∧ str.getD i0 0 = chZero ∧ (str.getD (i0 + 1) 0 = chX ∨ str.getD (i0 + 1) 0 = chBigX)
    then i0 + 2 else i0
  let start := i1
  let r := digitLoop base (str.drop i1) 0 i1
  (r.1, if str.getD r.2 0 ≠ 0 then r.2 else start)

/-! ## `CPatternContainer` -/

/-- The data members of `CPatternContainer` (the padding excluded). -/
structure CPatternContainer where
  longestSeqFirstChar : Nat
  pattern : List Nat
  mask : List Nat
  maskLen : Nat
  longestSeqStart : Nat
  longestSeqLen : Nat
  byteMask : List Nat
  deriving DecidableEq, Repr

/-- The inner `while` of the constructor, run on the mask and pattern characters
from index `i` on: the number of leading positions that are exact and hold a
non-zero byte. -/
def subSeqLenFrom : List Nat → List Nat → Nat
  | m :: ms, p :: ps => if m = chX ∧ p ≠ 0 then subSeqLenFrom ms ps + 1 else 0
  | _, _ => 0

/-- The `for` loop of the constructor: returns `(currLongestSeqStart, currLongestSeqLen)`,
or `none` when the fuel runs out. -/
def scanLoop (pattern mask : List Nat) (maskLen : Nat) : Nat → Nat → Nat → Nat → Option (Nat × Nat)
  | 0, _, _, _ => none
  | fuel + 1, i, currLongestSeqStart, currLongestSeqLen =>
    if i < maskLen then
      if mask.getD i 0 ≠ chX then
        scanLoop pattern mask maskLen fuel ((i + 1) % SIZE_MOD) currLongestSeqStart currLongestSeqLen
      else
        let subSeqLen := subSeqLenFrom (mask.drop i) (pattern.drop i)
        let best :=
          if subSeqLen > currLongestSeqLen then (i, subSeqLen)
          else (currLongestSeqStart, currLongestSeqLen)
        -- i += subSeqLen - 1; then the ++i of the loop header
        let i1 := (i + (subSeqLen + SIZE_MOD - 1) % SIZE_MOD) % SIZE_MOD
        scanLoop pattern mask maskLen fuel ((i1 + 1) % SIZE_MOD) best.1 best.2
    else some (currLongestSeqStart, currLongestSeqLen)

/-- Embedding of `PopulateByteMask`: sets the entry of every byte of the run. -/
def PopulateByteMask (pattern : List Nat) (longestSeqStart longestSeqLen : Nat) (byteMask : List Nat) : List Nat :=
  (List.range' longestSeqStart longestSeqLen).foldl (fun bm i => bm.set (pattern.getD i 0 % 256) 1) byteMask

/-- Embedding of the constructor `CPatternContainer(pattern, mask)`; `none` when
the fuel runs out. -/
def mkContainer (fuel : Nat) (pattern mask : List Nat) : Option CPatternContainer :=
  let maskLen := StrlenCompileTime mask
  match scanLoop pattern mask maskLen fuel 0 0 0 with
  | none => none
  | some (s, l) =>
    some
      { longestSeqFirstChar := pattern.getD s 0 % 256
        pattern := pattern
        mask := mask
        maskLen := maskLen
        longestSeqStart := s
        longestSeqLen := l
        byteMask := PopulateByteMask pattern s l (List.replicate 256 0) }

/-! ## `FindPattern` -/

/-- What a call of `FindPattern` does: it returns `data + delta`, it returns
`nullptr`, or it reads `data[idx]` outside the buffer. -/
inductive FindResult where
  | found (delta : Nat)
  | notFound
  | outOfBounds (idx : Nat)
  deriving DecidableEq, Repr

/-- The skip loop `while (w == 0 && i > seqLen)`: the fuel bounds the iterations;
on exit it gives the cursor and the byte under it. -/
def skipLoop (byteMask : List Nat) (seqLen : Nat) (data : List Nat) : Nat → Nat → Nat → Nat → Option (Except Nat (Nat × Nat))
  | 0, _, _, _ => none
  | fuel + 1, i, c, w =>
    if w = 0 ∧ i > seqLen then
      -- i -= seqLen cannot wrap under the loop condition
      match data[i - seqLen]? with
      | none => some (.error (i - seqLen))
      | some c1 => skipLoop byteMask seqLen data fuel (i - seqLen) c1 (byteMask.getD c1 0)
    else some (.ok (i, c))

/-- The verification loop `for (j = 0; j < maskLen - 1; ++j)`, with `n` iterations
left: `.ok match`, or `.error idx` for a read outside the buffer. -/
def verifyLoop (pattern mask data : List Nat) (delta : Nat) : Nat → Nat → Except Nat Bool
  | 0, _ => .ok true
  | n + 1, j =>
    if mask.getD j 0 ≠ chX then verifyLoop pattern mask data delta n (j + 1)
    else
      match data[(delta + j) % SIZE_MOD]? with
      | none => .error ((delta + j) % SIZE_MOD)
      | some b =>
        if b ≠ pattern.getD j 0 % 256 then .ok false
        else verifyLoop pattern mask data delta n (j + 1)

/-- The outer `for` loop of `FindPattern` at cursor `i`.  `verifyCount` is the
loop-invariant bound `maskLen - 1` of the verification loop (computed in
`size_t`, see `FindPattern`). -/
def findLoop (c : CPatternContainer) (data : List Nat) (dataLen verifyCount : Nat) : Nat → Nat → Option FindResult
  | 0, _ => none
  | fuel + 1, i =>
    if i = PATTERN_ITERRATOR_MAX_INT then some .notFound
    else
      -- the prefetch of &data[i - 64] is a hint and reads nothing
      match data[i]? with
      | none => some (.outOfBounds i)
      | some ch =>
        match skipLoop c.byteMask c.longestSeqLen data fuel i ch (c.byteMask.getD ch 0) with
        | none => none
        | some (.error idx) => some (.outOfBounds idx)
        | some (.ok (i1, c1)) =>
          if c1 ≠ c.longestSeqFirstChar then
            findLoop c data dataLen verifyCount fuel ((i1 + SIZE_MOD - 1) % SIZE_MOD)
          else
            let delta := (i1 + SIZE_MOD - c.longestSeqStart) % SIZE_MOD
            -- delta < 0 is always false for a size_t
            if (delta + c.maskLen) % SIZE_MOD > dataLen then some .notFound
            else
              match verifyLoop c.pattern c.mask data delta verifyCount 0 with
              | .error idx => some (.outOfBounds idx)
              | .ok true => some (.found delta)
              | .ok false => findLoop c data dataLen verifyCount fuel ((i1 + SIZE_MOD - 1) % SIZE_MOD)

/-- Embedding of `FindPattern(container, data, dataLen)`: the start cursor is
`dataLen - maskLen` and the verification bound `maskLen - 1`, both in `size_t`. -/
def FindPattern (c : CPatternContainer) (data : List Nat) (dataLen : Nat) (fuel : Nat) : Option FindResult :=
  findLoop c data dataLen ((c.maskLen + SIZE_MOD - 1) % SIZE_MOD) fuel
    ((dataLen + SIZE_MOD - c.maskLen) % SIZE_MOD)

/-! ## `CIDAToCodePattern` -/

/-- Embedding of `CalcBufSize(str, cIdx, wasWildcard)`, run on the characters of
`str` from index `cIdx` on. -/
def CalcBufSize : List Nat → Bool → Nat
  | [], _ => 0
  | c :: rest, wasWildcard =>
    if c = 0 then 0
    else if c = chSpace ∨ c = chTab then CalcBufSize rest false
    else if c = chQ then
      if wasWildcard then CalcBufSize rest false
      else CalcBufSize rest true + 2
    else CalcBufSize rest (decide (c = chQ)) + 1

/-- Embedding of `BufLen()`: the size of the arrays `codePattern` and `mask`. -/
def BufLen (S : List Nat) : Nat := CalcBufSize S false / 2 + 1

/-- What the constructor of `CIDAToCodePattern` does: it completes with the two
arrays, or it writes slot `bufPos` past the end of the arrays. -/
inductive CompileResult where
  | done (codePattern mask : List Nat)
  | outOfBounds (bufPos : Nat)
  deriving DecidableEq, Repr

/-- The `for` loop of the constructor.  `len` is `StrlenCompileTime(S)`, so that
`currCh < idaPatternEnd` (with `idaPatternEnd = S + len - 1`) reads
`currCh + 1 < len`; `none` when the fuel runs out. -/
def compileLoop (S : List Nat) (len : Nat) : Nat → Nat → Nat → List Nat → List Nat → Option CompileResult
  | 0, _, _, _, _ => none
  | fuel + 1, currCh, bufPos, codePattern, mask =>
    if currCh + 1 < len then
      if S.getD currCh 0 = chSpace ∨ S.getD currCh 0 = chTab then
        compileLoop S len fuel (currCh + 1) bufPos codePattern mask
      else if S.getD currCh 0 = chQ then
        if bufPos < codePattern.length then
          if S.getD (currCh + 1) 0 = chQ then
            -- the second wildcard is consumed: continue with ++currCh from currCh + 1
            compileLoop S len fuel (currCh + 2) (bufPos + 1) (codePattern.set bufPos 170) (mask.set bufPos chQ)
          else
            compileLoop S len fuel (currCh + 1) (bufPos + 1) (codePattern.set bufPos 170) (mask.set bufPos chQ)
        else some (.outOfBounds bufPos)
      else
        let r := StrtoulCompileTime (S.drop currCh) 16
        if bufPos < codePattern.length then
          compileLoop S len fuel (currCh + r.2 + 1) (bufPos + 1) (codePattern.set bufPos (r.1 % 256)) (mask.set bufPos chX)
        else some (.outOfBounds bufPos)
    else some (.done codePattern mask)

/-- Embedding of the constructor `CIDAToCodePattern<S>()`: both arrays start
zero-initialised with `BufLen()` elements. -/
def compilePattern (S : List Nat) (fuel : Nat) : Option CompileResult :=
  compileLoop S (StrlenCompileTime S) fuel 0 0 (List.replicate (BufLen S) 0) (List.replicate (BufLen S) 0)

/-! ## Specification-side notions -/

/-- The pattern of length `N` occurs at offset `k` of the buffer: it fits, and
every exact position holds the pattern byte. -/
def occursAt (pattern mask data : List Nat) (N k : Nat) : Prop :=
  k + N ≤ data.length ∧ ∀ j < N, mask.getD j 0 = chX → data[k + j]? = some (pattern.getD j 0)

instance (pattern mask data : List Nat) (N k : Nat) : Decidable (occursAt pattern mask data N k) := by
  unfold occursAt
  infer_instance

/-- A character the signature syntax has no use for: neither space nor tab, not
the question mark, and not a hexadecimal digit. -/
def malformedChar (c : Nat) : Prop :=
  c ≠ chSpace ∧ c ≠ chTab ∧ c ≠ chQ ∧ hexDigit c = none

instance (c : Nat) : Decidable (malformedChar c) := by
  unfold malformedChar
  infer_instance

/-- Every position of `[a, a + m)` of the mask is exact. -/
def allExact (mask : List Nat) (a m : Nat) : Prop :=
  ∀ t < m, mask.getD (a + t) 0 = chX

instance (mask : List Nat) (a m : Nat) : Decidable (allExact mask a m) := by
  unfold allExact
  infer_instance

/-- The invariant of the constructor scan at index `i`: the stored run
`(cs, cl)` is `(0, 0)` or a block of exact positions before `i`, and every block
of exact positions that starts before `i` is no longer than `cl` and, when it is
as long, does not start before `cs`. -/
def scanInv (mask : List Nat) (i cs cl : Nat) : Prop :=
  (cl = 0 → cs = 0)
  ∧ (1 ≤ cl → allExact mask cs cl ∧ cs + cl ≤ i)
  ∧ ∀ a m, a < i → allExact mask a m → m ≤ cl ∧ (m = cl → 1 ≤ m → cs ≤ a)

/-- A token of the signature syntax: two hex digit characters, `?`, or `??`. -/
inductive SigToken where
  | hex (hi lo : Nat)
  | wild1
  | wild2
  deriving DecidableEq, Repr

/-- The characters of a token. -/
def SigToken.chars : SigToken → List Nat
  | .hex hi lo => [hi, lo]
  | .wild1 => [chQ]
  | .wild2 => [chQ, chQ]

/-- A hex token is made of two hex digit characters (either case). -/
def SigToken.wf : SigToken → Bool
  | .hex hi lo => (hexDigit hi).isSome && (hexDigit lo).isSome
  | _ => true

/-- The byte a token stands for: its value for a hex token, the placeholder
`0xAA` for a wildcard. -/
def SigToken.byte : SigToken → Nat
  | .hex hi lo => 16 * (hexDigit hi).getD 0 + (hexDigit lo).getD 0
  | _ => 0xAA

/-- The mask entry a token stands for: `x` for a hex token, `?` for a wildcard. -/
def SigToken.maskChar : SigToken → Nat
  | .hex _ _ => chX
  | _ => chQ

/-- Space or tab. -/
def isBlank (c : Nat) : Bool := c == chSpace || c == chTab

/-- The characters of a signature given as its tokens, each followed by the
blanks that separate it from the next token (or that end the signature). -/
def sigChars : List (SigToken × List Nat) → List Nat
  | [] => []
  | (t, sep) :: rest => t.chars ++ sep ++ sigChars rest

/-- Well-formed signature: every token is well formed, every separator is made
of spaces and tabs, and the separator between two tokens is not empty. -/
def sigWF : List (SigToken × List Nat) → Bool
  | [] => true
  | [(t, sep)] => t.wf && sep.all isBlank
  | (t, sep) :: x :: rest => t.wf && sep.all isBlank && !sep.isEmpty && sigWF (x :: rest)

/-- The final character of the signature is not a lone `?` token: the last token
is a hex byte or `??`, or it is followed by a blank. -/
def lastTokenOK : List (SigToken × List Nat) → Bool
  | [] => true
  | [(t, sep)] => !(t == .wild1) || !sep.isEmpty
  | _ :: x :: rest => lastTokenOK (x :: rest)

/-- The bytes of the slots of a signature, one for each token. -/
def slotBytes (items : List (SigToken × List Nat)) : List Nat :=
  items.map (fun it => it.1.byte)

/-- The mask entries of the slots of a signature, one for each token. -/
def slotMasks (items : List (SigToken × List Nat)) : List Nat :=
  items.map (fun it => it.1.maskChar)

/-! ## Helper lemmas -/

theorem getD_drop_zero (S : List Nat) (n : Nat) : (S.drop n).getD 0 0 = S.getD n 0 := by
  simp [List.getD_eq_getElem?_getD, List.getElem?_drop]

/-- On a character that is no digit (and no blank) the numeric parser consumes
nothing: value `0`, stopping point `0`. -/
theorem StrtoulCompileTime_no_digit (str : List Nat) (h : malformedChar (str.getD 0 0)) :
    StrtoulCompileTime str 16 = (0, 0) := by
  obtain ⟨h1, h2, _, h4⟩ := h
  cases str with
  | nil => simp [StrtoulCompileTime, skipLeadingWs, digitLoop]
  | cons c rest =>
    simp only [List.getD_cons_zero] at h1 h2 h4
    have hz : c ≠ chZero := by
      intro hc
      subst hc
      exact absurd h4 (by decide)
    simp [StrtoulCompileTime, skipLeadingWs, h1, h2, hz, digitLoop, h4]

/-- The constructor loop never rewrites a slot below the current `bufPos`. -/
theorem compileLoop_frame (S : List Nat) (len : Nat) :
    ∀ (fuel currCh bufPos : Nat) (cp mk cp1 mk1 : List Nat),
      compileLoop S len fuel currCh bufPos cp mk = some (.done cp1 mk1) →
      ∀ k < bufPos, cp1.getD k 0 = cp.getD k 0 ∧ mk1.getD k 0 = mk.getD k 0 := by
  intro fuel
  induction fuel with
  | zero => intro currCh bufPos cp mk cp1 mk1 h; simp [compileLoop] at h
  | succ fuel ih =>
    intro currCh bufPos cp mk cp1 mk1 h k hk
    rw [compileLoop] at h
    split_ifs at h with h1 h2 h3 h4 h5 h6
    · exact ih _ _ _ _ _ _ h k hk
    · have := ih _ _ _ _ _ _ h k (by omega)
      simpa [List.getD_eq_getElem?_getD, List.getElem?_set, show bufPos ≠ k by omega] using this
    · have := ih _ _ _ _ _ _ h k (by omega)
      simpa [List.getD_eq_getElem?_getD, List.getElem?_set, show bufPos ≠ k by omega] using this
    · simp at h
    · have := ih _ _ _ _ _ _ h k (by omega)
      simpa [List.getD_eq_getElem?_getD, List.getElem?_set, show bufPos ≠ k by omega] using this
    · simp at h
    · simp only [Option.some.injEq, CompileResult.done.injEq] at h
      obtain ⟨rfl, rfl⟩ := h
      exact ⟨rfl, rfl⟩

/-- With an all-zero presence table and a zero skip distance the skip loop at
cursor `1` of the buffer `[0, 0]` never exits. -/
theorem skipLoop_zero_step_diverges :
    ∀ fuel : Nat, skipLoop (List.replicate 256 0) 0 [0, 0] fuel 1 0 0 = none := by
  intro fuel
  induction fuel with
  | zero => rfl
  | succ fuel ih => exact ih

/-- When the skip loop never exits, neither does the outer loop. -/
theorem findLoop_of_skipLoop_none (c : CPatternContainer) (data : List Nat)
    (dataLen verifyCount fuel i ch : Nat) (hi : i ≠ PATTERN_ITERRATOR_MAX_INT)
    (hd : data[i]? = some ch)
    (hs : skipLoop c.byteMask c.longestSeqLen data fuel i ch (c.byteMask.getD ch 0) = none) :
    findLoop c data dataLen verifyCount (fuel + 1) i = none := by
  rw [findLoop, if_neg hi, hd]
  simp only []
  rw [hs]

/-- The constructor loop returns once the fuel exceeds the characters left. -/
theorem compileLoop_isSome (S : List Nat) (len : Nat) :
    ∀ (fuel currCh bufPos : Nat) (cp mk : List Nat), len - currCh < fuel →
      (compileLoop S len fuel currCh bufPos cp mk).isSome = true := by
  intro fuel
  induction fuel with
  | zero => intro currCh bufPos cp mk h; omega
  | succ fuel ih =>
    intro currCh bufPos cp mk h
    rw [compileLoop]
    split_ifs with h1 h2 h3 h4 h5 h6
    · exact ih _ _ _ _ (by omega)
    · exact ih _ _ _ _ (by omega)
    · exact ih _ _ _ _ (by omega)
    · rfl
    · exact ih _ _ _ _ (by omega)
    · rfl
    · rfl

/-- One iteration of the constructor loop on a malformed character: an exact
slot with byte `0` is written and the cursor moves on by one character. -/
theorem compileLoop_malformed_step (S : List Nat) (len fuel currCh bufPos : Nat) (cp mk : List Nat)
    (hcur : currCh + 1 < len) (hbad : malformedChar (S.getD currCh 0)) (hcap : bufPos < cp.length) :
    compileLoop S len (fuel + 1) currCh bufPos cp mk
      = compileLoop S len fuel (currCh + 1) (bufPos + 1) (cp.set bufPos 0) (mk.set bufPos chX) := by
  have hparse : StrtoulCompileTime (S.drop currCh) 16 = (0, 0) :=
    StrtoulCompileTime_no_digit _ (by rw [getD_drop_zero]; exact hbad)
  obtain ⟨h1, h2, h3, _⟩ := hbad
  rw [compileLoop, if_pos hcur, if_neg (by tauto), if_neg h3]
  simp only [hparse, if_pos hcap, Nat.zero_mod, Nat.add_zero]

/-! ## Wrap-around arithmetic -/

theorem decr_zero : (0 + SIZE_MOD - 1) % SIZE_MOD = PATTERN_ITERRATOR_MAX_INT := by
  unfold SIZE_MOD PATTERN_ITERRATOR_MAX_INT
  omega

theorem decr_pos_le (i : Nat) (h : 1 ≤ i) : (i + SIZE_MOD - 1) % SIZE_MOD ≤ i - 1 := by
  have h1 : i + SIZE_MOD - 1 = (i - 1) + SIZE_MOD := by omega
  rw [h1, Nat.add_mod_right]
  exact Nat.mod_le _ _

theorem decr_pos_eq (i : Nat) (h : 1 ≤ i) (hi : i ≤ SIZE_MOD) : (i + SIZE_MOD - 1) % SIZE_MOD = i - 1 := by
  have h1 : i + SIZE_MOD - 1 = (i - 1) + SIZE_MOD := by omega
  rw [h1, Nat.add_mod_right]
  exact Nat.mod_eq_of_lt (by omega)

/-! ## Termination of the search loops -/

/-- With a skip distance of at least one the skip loop exits within `i + 1`
iterations; it never moves the cursor up and never moves it to zero. -/
theorem skipLoop_exits (bm data : List Nat) (L : Nat) (hL : 1 ≤ L) :
    ∀ (fuel i ch w : Nat), i < fuel →
      ∃ r, skipLoop bm L data fuel i ch w = some r ∧
        ∀ i1 c1, r = .ok (i1, c1) → i1 ≤ i ∧ (0 < i → 0 < i1) := by
  intro fuel
  induction fuel with
  | zero => intro i ch w h; omega
  | succ fuel ih =>
    intro i ch w h
    rw [skipLoop]
    split_ifs with hc
    · cases hd : data[i - L]? with
      | none => exact ⟨_, rfl, fun i1 c1 h1 => by cases h1⟩
      | some c1 =>
        simp only []
        obtain ⟨r, hr, hle⟩ := ih (i - L) c1 (bm.getD c1 0) (by omega)
        refine ⟨r, hr, fun i1 c2 h1 => ?_⟩
        have := hle i1 c2 h1
        omega
    · refine ⟨_, rfl, fun i1 c1 h1 => ?_⟩
      simp only [Except.ok.injEq, Prod.mk.injEq] at h1
      omega

/-- With a skip distance of at least one the outer loop returns within `i + 2`
iterations from cursor `i`. -/
theorem findLoop_returns (c : CPatternContainer) (data : List Nat) (dataLen verifyCount : Nat)
    (hL : 1 ≤ c.longestSeqLen) :
    ∀ (i fuel : Nat), i + 2 ≤ fuel → ∃ r, findLoop c data dataLen verifyCount fuel i = some r := by
  intro i
  induction i using Nat.strong_induction_on with
  | _ i ih =>
    intro fuel hf
    obtain ⟨f, rfl⟩ : ∃ f, fuel = f + 1 := ⟨fuel - 1, by omega⟩
    rw [findLoop]
    split_ifs with hmax
    · exact ⟨_, rfl⟩
    · cases hd : data[i]? with
      | none => exact ⟨_, rfl⟩
      | some ch =>
        simp only []
        obtain ⟨r, hr, hle⟩ := skipLoop_exits c.byteMask data c.longestSeqLen hL f i ch
          (c.byteMask.getD ch 0) (by omega)
        rw [hr]
        cases r with
        | error idx => exact ⟨_, rfl⟩
        | ok p =>
          obtain ⟨i1, c1⟩ := p
          have hi1 := (hle i1 c1 rfl).1
          have key : ∃ r, findLoop c data dataLen verifyCount f ((i1 + SIZE_MOD - 1) % SIZE_MOD) = some r := by
            rcases Nat.eq_zero_or_pos i1 with h0 | hpos
            · subst h0
              rw [decr_zero]
              obtain ⟨f1, rfl⟩ : ∃ f1, f = f1 + 1 := ⟨f - 1, by omega⟩
              rw [findLoop, if_pos rfl]
              exact ⟨_, rfl⟩
            · have := decr_pos_le i1 hpos
              exact ih _ (by omega) f (by omega)
          simp only []
          split_ifs with h1 h2
          · exact key
          · exact ⟨_, rfl⟩
          · cases hv : verifyLoop c.pattern c.mask data
                ((i1 + SIZE_MOD - c.longestSeqStart) % SIZE_MOD) verifyCount 0 with
            | error idx => exact ⟨_, rfl⟩
            | ok b =>
              cases b with
              | true => exact ⟨_, rfl⟩
              | false => exact key

theorem sub_wrap_of_le (a b : Nat) (hb : b ≤ a) (ha : a - b < SIZE_MOD) :
    (a + SIZE_MOD - b) % SIZE_MOD = a - b := by
  have h1 : a + SIZE_MOD - b = (a - b) + SIZE_MOD := by omega
  rw [h1, Nat.add_mod_right]
  exact Nat.mod_eq_of_lt ha

theorem sub_wrap_of_lt (a b : Nat) (h : a < b) (hb : b ≤ SIZE_MOD) :
    (a + SIZE_MOD - b) % SIZE_MOD = a + SIZE_MOD - b :=
  Nat.mod_eq_of_lt (by omega)

/-! ## What a returned offset guarantees -/

/-- On exit the skip loop has not moved the cursor up, has not moved it to zero,
and holds the byte under the cursor. -/
theorem skipLoop_ok_spec (bm data : List Nat) (L : Nat) :
    ∀ (fuel i ch w i1 c1 : Nat), skipLoop bm L data fuel i ch w = some (.ok (i1, c1)) →
      i1 ≤ i ∧ (0 < i → 0 < i1) ∧ (data[i]? = some ch → data[i1]? = some c1) := by
  intro fuel
  induction fuel with
  | zero => intro i ch w i1 c1 h; simp [skipLoop] at h
  | succ fuel ih =>
    intro i ch w i1 c1 h
    rw [skipLoop] at h
    split_ifs at h with hc
    · cases hd : data[i - L]? with
      | none => rw [hd] at h; simp at h
      | some c2 =>
        rw [hd] at h
        simp only [] at h
        obtain ⟨h1, h2, h3⟩ := ih _ _ _ _ _ h
        exact ⟨by omega, fun _ => h2 (by omega), fun _ => h3 hd⟩
    · simp only [Option.some.injEq, Except.ok.injEq, Prod.mk.injEq] at h
      obtain ⟨rfl, rfl⟩ := h
      exact ⟨le_refl _, id, id⟩

/-- A successful verification has compared every exact position it ran over. -/
theorem verifyLoop_true (pattern mask data : List Nat) (delta : Nat) :
    ∀ (n j0 : Nat), verifyLoop pattern mask data delta n j0 = .ok true →
      ∀ j, j0 ≤ j → j < j0 + n → mask.getD j 0 = chX →
        data[(delta + j) % SIZE_MOD]? = some (pattern.getD j 0 % 256) := by
  intro n
  induction n with
  | zero => intro j0 _ j h1 h2; omega
  | succ n ih =>
    intro j0 h j h1 h2 hx
    rw [verifyLoop] at h
    split_ifs at h with hm
    · rcases Nat.eq_or_lt_of_le h1 with rfl | hlt
      · exact absurd hx hm
      · exact ih _ h j (by omega) (by omega) hx
    · cases hd : data[(delta + j0) % SIZE_MOD]? with
      | none => rw [hd] at h; simp at h
      | some b =>
        rw [hd] at h
        simp only [] at h
        split_ifs at h with hb
        · simp at h
        · rcases Nat.eq_or_lt_of_le h1 with rfl | hlt
          · rw [hd]
            simp only [ne_eq, Decidable.not_not] at hb
            rw [hb]
          · exact ih _ h j (by omega) (by omega) hx

/-- The sentinel cursor ends the search as not-found, so nothing is found from it. -/
theorem findLoop_sentinel_not_found (c : CPatternContainer) (data : List Nat)
    (dataLen verifyCount fuel d : Nat) :
    findLoop c data dataLen verifyCount fuel PATTERN_ITERRATOR_MAX_INT ≠ some (.found d) := by
  cases fuel with
  | zero => simp [findLoop]
  | succ f => rw [findLoop, if_pos rfl]; simp

/-- A returned offset comes from a cursor `i1` at or below the start cursor, whose
byte is the first byte of the anchor run, whose offset passed the bounds check
and the verification loop. -/
theorem findLoop_found (c : CPatternContainer) (data : List Nat) (dataLen verifyCount : Nat) :
    ∀ (fuel i d : Nat), findLoop c data dataLen verifyCount fuel i = some (.found d) →
      i < data.length ∧ ∃ i1, i1 ≤ i ∧ data[i1]? = some c.longestSeqFirstChar ∧
        d = (i1 + SIZE_MOD - c.longestSeqStart) % SIZE_MOD ∧
        (d + c.maskLen) % SIZE_MOD ≤ dataLen ∧
        verifyLoop c.pattern c.mask data d verifyCount 0 = .ok true := by
  intro fuel
  induction fuel with
  | zero => intro i d h; simp [findLoop] at h
  | succ f ih =>
    intro i d h
    rw [findLoop] at h
    split_ifs at h with hmax
    · simp at h
    · cases hd : data[i]? with
      | none => rw [hd] at h; simp at h
      | some ch =>
        have hlt : i < data.length := by
          by_contra hge
          rw [List.getElem?_eq_none (by omega)] at hd
          simp at hd
        refine ⟨hlt, ?_⟩
        rw [hd] at h
        simp only [] at h
        cases hs : skipLoop c.byteMask c.longestSeqLen data f i ch (c.byteMask.getD ch 0) with
        | none => rw [hs] at h; simp at h
        | some r =>
          rw [hs] at h
          cases r with
          | error idx => simp at h
          | ok p =>
            obtain ⟨i1, c1⟩ := p
            obtain ⟨hle, _, hbyte⟩ := skipLoop_ok_spec _ _ _ _ _ _ _ _ _ hs
            have hrec : findLoop c data dataLen verifyCount f ((i1 + SIZE_MOD - 1) % SIZE_MOD)
                = some (.found d) →
                ∃ i2, i2 ≤ i ∧ data[i2]? = some c.longestSeqFirstChar ∧
                  d = (i2 + SIZE_MOD - c.longestSeqStart) % SIZE_MOD ∧
                  (d + c.maskLen) % SIZE_MOD ≤ dataLen ∧
                  verifyLoop c.pattern c.mask data d verifyCount 0 = .ok true := by
              intro hr
              rcases Nat.eq_zero_or_pos i1 with h0 | hpos
              · subst h0
                rw [decr_zero] at hr
                exact absurd hr (findLoop_sentinel_not_found _ _ _ _ _ _)
              · obtain ⟨_, i2, h2, rest⟩ := ih _ _ hr
                have := decr_pos_le i1 hpos
                exact ⟨i2, by omega, rest⟩
            simp only [] at h
            split_ifs at h with h1 h2
            · exact hrec h
            · simp at h
            · cases hv : verifyLoop c.pattern c.mask data
                  ((i1 + SIZE_MOD - c.longestSeqStart) % SIZE_MOD) verifyCount 0 with
              | error idx => rw [hv] at h; simp at h
              | ok b =>
                rw [hv] at h
                cases b with
                | false => exact hrec h
                | true =>
                  simp only [Option.some.injEq, FindResult.found.injEq] at h
                  subst h
                  simp only [ne_eq, Decidable.not_not] at h1
                  refine ⟨i1, hle, ?_, rfl, by omega, hv⟩
                  rw [← h1]
                  exact hbyte hd

/-! ## The presence table -/

/-- Setting the entries `f i` for `i` in a list: entry `v` ends up `1` when
some `f i` is `v`, and keeps its value otherwise. -/
theorem foldl_set_getD (f : Nat → Nat) (v : Nat) :
    ∀ (idxs : List Nat) (bm : List Nat), v < bm.length →
      ((∃ i ∈ idxs, f i = v) → (idxs.foldl (fun b i => b.set (f i) 1) bm).getD v 0 = 1)
      ∧ ((¬ ∃ i ∈ idxs, f i = v) →
          (idxs.foldl (fun b i => b.set (f i) 1) bm).getD v 0 = bm.getD v 0) := by
  intro idxs
  induction idxs with
  | nil => intro bm _; simp
  | cons a rest ih =>
    intro bm hv
    have hv1 : v < (bm.set (f a) 1).length := by rw [List.length_set]; exact hv
    obtain ⟨ih1, ih2⟩ := ih (bm.set (f a) 1) hv1
    rw [List.foldl_cons]
    constructor
    · rintro ⟨i, hi, hfi⟩
      by_cases hr : ∃ i ∈ rest, f i = v
      · exact ih1 hr
      · rw [ih2 hr]
        rcases List.mem_cons.mp hi with rfl | hi
        · subst hfi
          simp [List.getD_eq_getElem?_getD, List.getElem?_set, hv]
        · exact absurd ⟨i, hi, hfi⟩ hr
    · intro hno
      have hr : ¬ ∃ i ∈ rest, f i = v := fun ⟨i, hi, hfi⟩ =>
        hno ⟨i, List.mem_cons_of_mem _ hi, hfi⟩
      have ha : f a ≠ v := fun h => hno ⟨a, List.mem_cons_self _ _, h⟩
      rw [ih2 hr]
      simp [List.getD_eq_getElem?_getD, List.getElem?_set, ha]

/-- Entry `v` of the table built by `PopulateByteMask` from the all-zero table. -/
theorem PopulateByteMask_getD (pattern : List Nat) (s l v : Nat) (hv : v < 256) :
    ((∃ i, s ≤ i ∧ i < s + l ∧ pattern.getD i 0 % 256 = v) →
        (PopulateByteMask pattern s l (List.replicate 256 0)).getD v 0 = 1)
    ∧ ((¬ ∃ i, s ≤ i ∧ i < s + l ∧ pattern.getD i 0 % 256 = v) →
        (PopulateByteMask pattern s l (List.replicate 256 0)).getD v 0 = 0) := by
  unfold PopulateByteMask
  obtain ⟨h1, h2⟩ := foldl_set_getD (fun i => pattern.getD i 0 % 256) v (List.range' s l)
    (List.replicate 256 0) (by rw [List.length_replicate]; exact hv)
  constructor
  · rintro ⟨i, hi1, hi2, hfi⟩
    exact h1 ⟨i, List.mem_range'_1.mpr ⟨hi1, hi2⟩, hfi⟩
  · intro hno
    rw [h2]
    · rw [List.getD_eq_getElem?_getD, List.getElem?_replicate, if_pos hv]
      rfl
    · rintro ⟨i, hi, hfi⟩
      rw [List.mem_range'_1] at hi
      exact hno ⟨i, hi.1, hi.2, hfi⟩

/-- The members the constructor stores, in terms of the result of its scan. -/
theorem mkContainer_some (fuel : Nat) (pattern mask : List Nat) (c : CPatternContainer)
    (hc : mkContainer fuel pattern mask = some c) :
    scanLoop pattern mask (StrlenCompileTime mask) fuel 0 0 0
        = some (c.longestSeqStart, c.longestSeqLen)
    ∧ c.pattern = pattern ∧ c.mask = mask ∧ c.maskLen = StrlenCompileTime mask
    ∧ c.longestSeqFirstChar = pattern.getD c.longestSeqStart 0 % 256
    ∧ c.byteMask
        = PopulateByteMask pattern c.longestSeqStart c.longestSeqLen (List.replicate 256 0) := by
  rw [mkContainer] at hc
  cases hs : scanLoop pattern mask (StrlenCompileTime mask) fuel 0 0 0 with
  | none => simp only [hs] at hc; simp at hc
  | some p =>
    obtain ⟨s, l⟩ := p
    simp only [hs, Option.some.injEq] at hc
    subst hc
    exact ⟨rfl, rfl, rfl, rfl, rfl, rfl⟩

/-! ## The scan of the constructor -/

theorem getD_drop_add (l : List Nat) (i t : Nat) : (l.drop i).getD t 0 = l.getD (i + t) 0 := by
  simp [List.getD_eq_getElem?_getD, List.getElem?_drop]

/-- The characters before the length are not NUL, the one at the length is. -/
theorem StrlenCompileTime_spec :
    ∀ str : List Nat, (∀ j < StrlenCompileTime str, str.getD j 0 ≠ 0)
      ∧ str.getD (StrlenCompileTime str) 0 = 0 := by
  intro str
  induction str with
  | nil => simp [StrlenCompileTime]
  | cons c rest ih =>
    rw [StrlenCompileTime]
    split_ifs with hc
    · subst hc
      simp
    · refine ⟨fun j hj => ?_, ?_⟩
      · cases j with
        | zero => simpa using hc
        | succ j => simpa using ih.1 j (by omega)
      · simpa using ih.2

/-- The inner `while` counts the leading positions that are exact and hold a
non-zero byte, and stops at the first position that is not. -/
theorem subSeqLenFrom_spec :
    ∀ ms ps : List Nat,
      (∀ t < subSeqLenFrom ms ps, ms.getD t 0 = chX ∧ ps.getD t 0 ≠ 0)
      ∧ ¬ (ms.getD (subSeqLenFrom ms ps) 0 = chX ∧ ps.getD (subSeqLenFrom ms ps) 0 ≠ 0) := by
  intro ms
  induction ms with
  | nil => intro ps; simp [subSeqLenFrom]
  | cons m ms ih =>
    intro ps
    cases ps with
    | nil => simp [subSeqLenFrom]
    | cons p ps =>
      rw [subSeqLenFrom]
      split_ifs with hc
      · refine ⟨fun t ht => ?_, ?_⟩
        · cases t with
          | zero => simpa using hc
          | succ t => simpa using (ih ps).1 t (by omega)
        · simpa using (ih ps).2
      · simpa using hc

/-- One iteration of the scan on a position that is not exact. -/
theorem scanLoop_skip_step (pattern mask : List Nat) (N fuel i cs cl : Nat)
    (hi : i < N) (hNM : N < SIZE_MOD) (hx : mask.getD i 0 ≠ chX) :
    scanLoop pattern mask N (fuel + 1) i cs cl = scanLoop pattern mask N fuel (i + 1) cs cl := by
  rw [scanLoop, if_pos hi, if_pos hx, Nat.mod_eq_of_lt (by omega)]

/-- One iteration of the scan on an exact position that starts a block of
`r >= 1` positions: the index moves past the block. -/
theorem scanLoop_exact_step (pattern mask : List Nat) (N fuel i cs cl r : Nat)
    (hi : i < N) (hx : mask.getD i 0 = chX)
    (hr : subSeqLenFrom (mask.drop i) (pattern.drop i) = r) (hr1 : 1 ≤ r)
    (hir : i + r < SIZE_MOD) :
    scanLoop pattern mask N (fuel + 1) i cs cl
      = scanLoop pattern mask N fuel (i + r)
          (if r > cl then (i, r) else (cs, cl)).1 (if r > cl then (i, r) else (cs, cl)).2 := by
  rw [scanLoop, if_pos hi, if_neg (by simpa using hx)]
  simp only [hr]
  rw [decr_pos_eq r hr1 (by omega), Nat.mod_eq_of_lt (by omega : i + (r - 1) < SIZE_MOD),
    Nat.mod_eq_of_lt (by omega : i + (r - 1) + 1 < SIZE_MOD)]
  have : i + (r - 1) + 1 = i + r := by omega
  rw [this]

/-- The scan returns, and its result satisfies the invariant at the end of the mask. -/
theorem scanLoop_spec (pattern mask : List Nat) (N : Nat) (hNM : N < SIZE_MOD)
    (hN1 : ∀ j < N, mask.getD j 0 ≠ 0) (hN2 : mask.getD N 0 = 0)
    (hzero : ∀ j < N, mask.getD j 0 = chX → pattern.getD j 0 ≠ 0) :
    ∀ (fuel i cs cl : Nat), i ≤ N → scanInv mask i cs cl → N - i < fuel →
      ∃ s l, scanLoop pattern mask N fuel i cs cl = some (s, l) ∧ scanInv mask N s l := by
  intro fuel
  induction fuel with
  | zero => intro i cs cl _ _ h; omega
  | succ fuel ih =>
    intro i cs cl hiN hinv hfuel
    obtain ⟨hinv1, hinv2, hinv3⟩ := hinv
    by_cases hi : i < N
    · by_cases hx : mask.getD i 0 = chX
      · obtain ⟨hrun, hstop⟩ := subSeqLenFrom_spec (mask.drop i) (pattern.drop i)
        generalize hr : subSeqLenFrom (mask.drop i) (pattern.drop i) = r at hrun hstop
        simp only [getD_drop_add] at hrun hstop
        have hr1 : 1 ≤ r := by
          by_contra h0
          have : r = 0 := by omega
          subst this
          exact hstop ⟨hx, hzero i hi hx⟩
        have hirN : i + r ≤ N := by
          by_contra hgt
          have := (hrun (N - i) (by omega)).1
          rw [show i + (N - i) = N by omega, hN2] at this
          exact absurd this (by decide)
        have hend : mask.getD (i + r) 0 ≠ chX := by
          intro hxe
          rcases Nat.lt_or_ge (i + r) N with hlt | hge
          · exact hstop ⟨hxe, hzero _ hlt hxe⟩
          · rw [show i + r = N by omega, hN2] at hxe
            exact absurd hxe (by decide)
        have hblock : ∀ a m, i ≤ a → a < i + r → allExact mask a m → a + m ≤ i + r := by
          intro a m h1 h2 hall
          by_contra hgt
          have := hall (i + r - a) (by omega)
          rw [show a + (i + r - a) = i + r by omega] at this
          exact hend this
        rw [scanLoop_exact_step pattern mask N fuel i cs cl r hi hx hr hr1 (by omega)]
        apply ih _ _ _ hirN _ (by omega)
        by_cases hgt : r > cl
        · simp only [if_pos hgt]
          refine ⟨fun h => by omega, fun _ => ⟨fun t ht => (hrun t ht).1, le_refl _⟩,
            fun a m ha hall => ?_⟩
          rcases Nat.lt_or_ge a i with hlt | hge
          · have := hinv3 a m hlt hall
            exact ⟨by omega, fun h => by omega⟩
          · have := hblock a m hge ha hall
            exact ⟨by omega, fun h _ => by omega⟩
        · simp only [if_neg hgt]
          refine ⟨hinv1, fun h => ⟨(hinv2 h).1, by have := (hinv2 h).2; omega⟩,
            fun a m ha hall => ?_⟩
          rcases Nat.lt_or_ge a i with hlt | hge
          · exact hinv3 a m hlt hall
          · have := hblock a m hge ha hall
            have h2 := (hinv2 (by omega)).2
            exact ⟨by omega, fun h _ => by omega⟩
      · rw [scanLoop_skip_step pattern mask N fuel i cs cl hi hNM hx]
        apply ih _ _ _ (by omega) _ (by omega)
        refine ⟨hinv1, fun h => ⟨(hinv2 h).1, by have := (hinv2 h).2; omega⟩,
          fun a m ha hall => ?_⟩
        rcases Nat.lt_or_ge a i with hlt | hge
        · exact hinv3 a m hlt hall
        · have hai : a = i := by omega
          subst hai
          have hm : m = 0 := by
            by_contra hne
            have := hall 0 (by omega)
            rw [Nat.add_zero] at this
            exact hx this
          exact ⟨by omega, fun _ h => by omega⟩
    · have hiN2 : i = N := by omega
      subst hiN2
      rw [scanLoop, if_neg hi]
      exact ⟨cs, cl, rfl, hinv1, hinv2, hinv3⟩

/-- The constructor returns a container whose run satisfies the scan invariant
at the end of the mask, when no exact slot holds the byte `0`. -/
theorem mkContainer_spec (fuel : Nat) (pattern mask : List Nat)
    (hNM : StrlenCompileTime mask < SIZE_MOD)
    (hzero : ∀ j < StrlenCompileTime mask, mask.getD j 0 = chX → pattern.getD j 0 ≠ 0)
    (hfuel : StrlenCompileTime mask < fuel) :
    ∃ c, mkContainer fuel pattern mask = some c
      ∧ scanInv mask (StrlenCompileTime mask) c.longestSeqStart c.longestSeqLen := by
  obtain ⟨hN1, hN2⟩ := StrlenCompileTime_spec mask
  obtain ⟨s, l, hs, hinv⟩ := scanLoop_spec pattern mask _ hNM hN1 hN2 hzero fuel 0 0 0
    (Nat.zero_le _) ⟨fun _ => rfl, fun h => by omega, fun a m h => by omega⟩ (by omega)
  have hc : mkContainer fuel pattern mask
      = some
        { longestSeqFirstChar := pattern.getD s 0 % 256
          pattern := pattern
          mask := mask
          maskLen := StrlenCompileTime mask
          longestSeqStart := s
          longestSeqLen := l
          byteMask := PopulateByteMask pattern s l (List.replicate 256 0) } := by
    rw [mkContainer]
    simp only [hs]
  exact ⟨_, hc, hinv⟩

/-! ## Relative completeness of the skip-accelerated scan -/

/-- A run stored by the scan with a positive length starts inside the mask and
has the length the inner `while` counts from its start. -/
theorem scanLoop_run (pattern mask : List Nat) (N : Nat) :
    ∀ (fuel i cs cl s l : Nat),
      (1 ≤ cl → cs < N ∧ cl = subSeqLenFrom (mask.drop cs) (pattern.drop cs)) →
      scanLoop pattern mask N fuel i cs cl = some (s, l) →
      (1 ≤ l → s < N ∧ l = subSeqLenFrom (mask.drop s) (pattern.drop s)) := by
  intro fuel
  induction fuel with
  | zero => intro i cs cl s l _ h; simp [scanLoop] at h
  | succ fuel ih =>
    intro i cs cl s l hw h
    rw [scanLoop] at h
    split_ifs at h with hi hx
    · exact ih _ _ _ _ _ hw h
    · simp only [] at h
      refine ih _ _ _ _ _ ?_ h
      split_ifs with hgt
      · exact fun _ => ⟨hi, rfl⟩
      · exact hw
    · simp only [Option.some.injEq, Prod.mk.injEq] at h
      obtain ⟨rfl, rfl⟩ := h
      exact hw

/-- The anchor run of a container with a positive run length: its positions are
exact, hold non-zero bytes, and lie inside the mask. -/
theorem mkContainer_run (fuel : Nat) (pattern mask : List Nat) (c : CPatternContainer)
    (hc : mkContainer fuel pattern mask = some c) (hL : 1 ≤ c.longestSeqLen) :
    (∀ t < c.longestSeqLen, mask.getD (c.longestSeqStart + t) 0 = chX
        ∧ pattern.getD (c.longestSeqStart + t) 0 ≠ 0)
    ∧ c.longestSeqStart + c.longestSeqLen ≤ c.maskLen := by
  obtain ⟨hs, _, _, hlen, _, _⟩ := mkContainer_some fuel pattern mask c hc
  obtain ⟨hsN, hl⟩ := scanLoop_run pattern mask _ fuel 0 0 0 _ _ (fun h => by omega) hs hL
  obtain ⟨hrun, _⟩ := subSeqLenFrom_spec (mask.drop c.longestSeqStart) (pattern.drop c.longestSeqStart)
  rw [← hl] at hrun
  simp only [getD_drop_add] at hrun
  refine ⟨hrun, ?_⟩
  rw [hlen]
  obtain ⟨_, hN2⟩ := StrlenCompileTime_spec mask
  by_contra hgt
  have := (hrun (StrlenCompileTime mask - c.longestSeqStart) (by omega)).1
  rw [show c.longestSeqStart + (StrlenCompileTime mask - c.longestSeqStart)
      = StrlenCompileTime mask by omega, hN2] at this
  exact absurd this (by decide)

/-- The skip never steps over a cursor `T` at which every byte of the anchor run
is present in the table: from a cursor at or above `T` it exits at or above `T`. -/
theorem skipLoop_complete (bm data : List Nat) (L T : Nat) (hL : 1 ≤ L)
    (hpresent : ∀ t < L, ∃ b, data[T + t]? = some b ∧ bm.getD b 0 ≠ 0) :
    ∀ (fuel i ch : Nat), T ≤ i → data[i]? = some ch → i < fuel →
      ∃ i1 c1, skipLoop bm L data fuel i ch (bm.getD ch 0) = some (.ok (i1, c1))
        ∧ T ≤ i1 ∧ i1 ≤ i ∧ data[i1]? = some c1 := by
  intro fuel
  induction fuel with
  | zero => intro i ch _ _ h; omega
  | succ fuel ih =>
    intro i ch hT hd hf
    rw [skipLoop]
    split_ifs with hc
    · obtain ⟨hw, hiL⟩ := hc
      have hge : T + L ≤ i := by
        by_contra hlt
        obtain ⟨b, hb1, hb2⟩ := hpresent (i - T) (by omega)
        rw [show T + (i - T) = i by omega, hd] at hb1
        simp only [Option.some.injEq] at hb1
        subst hb1
        exact hb2 hw
      have hlt : i - L < data.length := by
        have : i < data.length := by
          by_contra hge2
          rw [List.getElem?_eq_none (by omega)] at hd
          simp at hd
        omega
      obtain ⟨c2, hc2⟩ : ∃ c2, data[i - L]? = some c2 :=
        ⟨data[i - L], List.getElem?_eq_getElem hlt⟩
      rw [hc2]
      simp only []
      obtain ⟨i1, c1, h1, h2, h3, h4⟩ := ih (i - L) c2 (by omega) hc2 (by omega)
      exact ⟨i1, c1, h1, h2, by omega, h4⟩
    · exact ⟨i, ch, rfl, hT, le_refl _, hd⟩

/-- When every read of the verification loop is inside the buffer, the loop
ends with a verdict. -/
theorem verifyLoop_ok (pattern mask data : List Nat) (delta : Nat) :
    ∀ (n j0 : Nat), (∀ j, j0 ≤ j → j < j0 + n → (delta + j) % SIZE_MOD < data.length) →
      ∃ b, verifyLoop pattern mask data delta n j0 = .ok b := by
  intro n
  induction n with
  | zero => intro j0 _; exact ⟨true, rfl⟩
  | succ n ih =>
    intro j0 hin
    have hrec := ih (j0 + 1) (fun j h1 h2 => hin j (by omega) (by omega))
    rw [verifyLoop]
    split_ifs with hm
    · exact hrec
    · have hlt := hin j0 (le_refl _) (by omega)
      rw [List.getElem?_eq_getElem hlt]
      simp only []
      split_ifs with hb
      · exact ⟨false, rfl⟩
      · exact hrec

/-- When every exact position the verification loop runs over holds the pattern
byte, the verdict is a match. -/
theorem verifyLoop_of_match (pattern mask data : List Nat) (delta : Nat) :
    ∀ (n j0 : Nat),
      (∀ j, j0 ≤ j → j < j0 + n → mask.getD j 0 = chX →
        data[(delta + j) % SIZE_MOD]? = some (pattern.getD j 0 % 256)) →
      verifyLoop pattern mask data delta n j0 = .ok true := by
  intro n
  induction n with
  | zero => intro j0 _; rfl
  | succ n ih =>
    intro j0 hin
    have hrec := ih (j0 + 1) (fun j h1 h2 => hin j (by omega) (by omega))
    rw [verifyLoop]
    split_ifs with hm
    · exact hrec
    · rw [hin j0 (le_refl _) (by omega) (by simpa using hm)]
      simp only []
      rw [if_neg (by simp)]
      exact hrec

/-- From a cursor at or above `k + longestSeqStart`, where the pattern passes the
first-byte test and the verification loop at offset `k`, the outer loop returns
an offset that is at least `k`. -/
theorem findLoop_complete (c : CPatternContainer) (data : List Nat) (dataLen k : Nat)
    (hL : 1 ≤ c.longestSeqLen) (hdata : data.length = dataLen) (hlen : dataLen < SIZE_MOD)
    (hpresent : ∀ t < c.longestSeqLen,
      ∃ b, data[k + c.longestSeqStart + t]? = some b ∧ c.byteMask.getD b 0 ≠ 0)
    (hfirst : data[k + c.longestSeqStart]? = some c.longestSeqFirstChar)
    (hver : ∀ j, j < c.maskLen - 1 → c.mask.getD j 0 = chX →
      data[k + j]? = some (c.pattern.getD j 0 % 256)) :
    ∀ (fuel i : Nat), k + c.longestSeqStart ≤ i → i + c.maskLen ≤ dataLen → 1 ≤ c.maskLen →
      i + 2 ≤ fuel →
      ∃ d, findLoop c data dataLen (c.maskLen - 1) fuel i = some (.found d) ∧ k ≤ d := by
  intro fuel
  induction fuel with
  | zero => intro i _ _ _ h; omega
  | succ f ih =>
    intro i hT hiN hN1 hf
    have himax : i ≠ PATTERN_ITERRATOR_MAX_INT := by
      unfold PATTERN_ITERRATOR_MAX_INT
      unfold SIZE_MOD at hlen
      omega
    have hilt : i < data.length := by omega
    rw [findLoop, if_neg himax, List.getElem?_eq_getElem hilt]
    simp only []
    obtain ⟨i1, c1, hs, hT1, hle, hb⟩ := skipLoop_complete c.byteMask data c.longestSeqLen
      (k + c.longestSeqStart) hL hpresent f i data[i] hT (List.getElem?_eq_getElem hilt) (by omega)
    rw [hs]
    simp only []
    have hrec : i1 ≠ k + c.longestSeqStart →
        ∃ d, findLoop c data dataLen (c.maskLen - 1) f ((i1 + SIZE_MOD - 1) % SIZE_MOD)
          = some (.found d) ∧ k ≤ d := by
      intro hne
      rw [decr_pos_eq i1 (by omega) (by omega)]
      exact ih (i1 - 1) (by omega) (by omega) hN1 (by omega)
    split_ifs with h1 h2
    · apply hrec
      intro heq
      rw [heq, hfirst] at hb
      simp only [Option.some.injEq] at hb
      exact h1 hb.symm
    · exfalso
      rw [sub_wrap_of_le _ _ (by omega) (by omega)] at h2
      rw [Nat.mod_eq_of_lt (by omega)] at h2
      omega
    · have hdelta : (i1 + SIZE_MOD - c.longestSeqStart) % SIZE_MOD = i1 - c.longestSeqStart :=
        sub_wrap_of_le _ _ (by omega) (by omega)
      rw [hdelta]
      obtain ⟨b, hvb⟩ := verifyLoop_ok c.pattern c.mask data (i1 - c.longestSeqStart)
        (c.maskLen - 1) 0 (fun j _ hj => by rw [Nat.mod_eq_of_lt (by omega)]; omega)
      rw [hvb]
      cases b with
      | true => exact ⟨_, rfl, by omega⟩
      | false =>
        simp only []
        apply hrec
        intro heq
        have hk : i1 - c.longestSeqStart = k := by omega
        rw [hk] at hvb
        have := verifyLoop_of_match c.pattern c.mask data k (c.maskLen - 1) 0
          (fun j _ hj hx => by
            rw [Nat.mod_eq_of_lt (by omega)]
            exact hver j (by omega) hx)
        rw [this] at hvb
        simp at hvb

/-! ## The sizing pass -/

/-- A hex digit character is not NUL, not a blank and not the question mark. -/
theorem hexDigit_isSome (c : Nat) (h : (hexDigit c).isSome = true) :
    c ≠ 0 ∧ c ≠ chSpace ∧ c ≠ chTab ∧ c ≠ chQ ∧ c ≠ chX ∧ c ≠ chBigX := by
  have aux : c ≠ 0 ∧ c ≠ 32 ∧ c ≠ 9 ∧ c ≠ 63 ∧ c ≠ 120 ∧ c ≠ 88 := by
    unfold hexDigit at h
    split_ifs at h with h1 h2 h3
    · omega
    · omega
    · omega
    · simp at h
  exact aux

theorem isBlank_iff (c : Nat) : isBlank c = true ↔ c = chSpace ∨ c = chTab := by
  simp [isBlank]

/-- Blanks contribute nothing to the size, and reset the wildcard flag. -/
theorem CalcBufSize_blanks (rest : List Nat) :
    ∀ (sep : List Nat) (b : Bool), sep.all isBlank = true → (sep ≠ [] ∨ b = false) →
      CalcBufSize (sep ++ rest) b = CalcBufSize rest false := by
  intro sep
  induction sep with
  | nil =>
    intro b _ h
    rcases h with h | h
    · exact absurd rfl h
    · subst h; rfl
  | cons c cs ih =>
    intro b hall _
    simp only [List.all_cons, Bool.and_eq_true] at hall
    have hc := (isBlank_iff c).mp hall.1
    have hc0 : c ≠ 0 := by rcases hc with h | h <;> (subst h; decide)
    rw [List.cons_append, CalcBufSize, if_neg hc0, if_pos hc]
    exact ih false hall.2 (Or.inr rfl)

/-- The sizing pass counts two units for every token of a well-formed signature. -/
theorem CalcBufSize_sigChars :
    ∀ items : List (SigToken × List Nat), sigWF items = true →
      CalcBufSize (sigChars items) false = 2 * items.length := by
  intro items
  induction items with
  | nil => intro _; rfl
  | cons it rest ih =>
    intro hwf
    obtain ⟨t, sep⟩ := it
    have hparts : t.wf = true ∧ sep.all isBlank = true ∧ (rest ≠ [] → sep ≠ [])
        ∧ sigWF rest = true := by
      cases rest with
      | nil =>
        simp only [sigWF, Bool.and_eq_true] at hwf
        exact ⟨hwf.1, hwf.2, fun h => absurd rfl h, rfl⟩
      | cons x rest =>
        simp only [sigWF, Bool.and_eq_true, Bool.not_eq_true', List.isEmpty_eq_false] at hwf
        exact ⟨hwf.1.1.1, hwf.1.1.2, fun _ => hwf.1.2, hwf.2⟩
    obtain ⟨htw, hsep, hne, hrest⟩ := hparts
    have hih := ih hrest
    have htail : ∀ b, (sep ≠ [] ∨ b = false) →
        CalcBufSize (sep ++ sigChars rest) b = 2 * rest.length := by
      intro b hb
      rw [CalcBufSize_blanks _ sep b hsep hb, hih]
    have htail1 : CalcBufSize (sep ++ sigChars rest) true = 2 * rest.length := by
      by_cases hs : sep = []
      · have hr : rest = [] := by
          by_contra hr
          exact hne hr hs
        subst hs hr
        rfl
      · exact htail true (Or.inl hs)
    rw [List.length_cons]
    cases t with
    | hex hi lo =>
      simp only [SigToken.wf, Bool.and_eq_true] at htw
      obtain ⟨h0, h1, h2, h3, _, _⟩ := hexDigit_isSome hi htw.1
      obtain ⟨l0, l1, l2, l3, _, _⟩ := hexDigit_isSome lo htw.2
      simp only [sigChars, SigToken.chars, List.cons_append, List.nil_append]
      rw [CalcBufSize, if_neg h0, if_neg (by tauto), if_neg h3, decide_eq_false h3,
        CalcBufSize, if_neg l0, if_neg (by tauto), if_neg l3, decide_eq_false l3,
        htail false (Or.inr rfl)]
      omega
    | wild1 =>
      simp only [sigChars, SigToken.chars, List.cons_append, List.nil_append]
      rw [CalcBufSize, if_neg (by decide), if_neg (by decide), if_pos rfl]
      simp only [Bool.false_eq_true, if_false]
      rw [htail1]
      omega
    | wild2 =>
      simp only [sigChars, SigToken.chars, List.cons_append, List.nil_append]
      rw [CalcBufSize, if_neg (by decide), if_neg (by decide), if_pos rfl]
      simp only [Bool.false_eq_true, if_false]
      rw [CalcBufSize, if_neg (by decide), if_neg (by decide), if_pos rfl, if_pos rfl,
        htail false (Or.inr rfl)]
      omega

/-! ## The stopping point of the numeric parser -/

theorem getD_append_add (l l2 : List Nat) (t : Nat) :
    (l ++ l2).getD (l.length + t) 0 = l2.getD t 0 := by
  simp [List.getD_eq_getElem?_getD, List.getElem?_append_right]

theorem getD_append_length (l l2 : List Nat) : (l ++ l2).getD l.length 0 = l2.getD 0 0 := by
  have := getD_append_add l l2 0
  simpa using this

/-- The blank-skipping loop stops at the first character that is not a blank. -/
theorem skipLeadingWs_append (t : List Nat) (ht : isBlank (t.getD 0 0) = false) :
    ∀ blanks : List Nat, blanks.all isBlank = true →
      skipLeadingWs (blanks ++ t) = blanks.length := by
  intro blanks
  induction blanks with
  | nil =>
    intro _
    cases t with
    | nil => rfl
    | cons c cs =>
      simp only [List.getD_cons_zero] at ht
      have : ¬ (c = chSpace ∨ c = chTab) := by
        rw [← isBlank_iff, ht]
        simp
      simp [skipLeadingWs, this]
  | cons c cs ih =>
    intro hall
    simp only [List.all_cons, Bool.and_eq_true] at hall
    have hc := (isBlank_iff c).mp hall.1
    rw [List.cons_append, skipLeadingWs, if_pos hc, ih hall.2, List.length_cons]

/-- The digit loop consumes the hex digits and stops at the first character
that is not one (or at the end of the string). -/
theorem digitLoop_stop (rest : List Nat) (hrest : hexDigit (rest.getD 0 0) = none) :
    ∀ (digits : List Nat) (result i : Nat), (∀ c ∈ digits, (hexDigit c).isSome = true) →
      (digitLoop 16 (digits ++ rest) result i).2 = i + digits.length := by
  intro digits
  induction digits with
  | nil =>
    intro result i _
    cases rest with
    | nil => rfl
    | cons c cs =>
      simp only [List.getD_cons_zero] at hrest
      rw [List.nil_append, digitLoop]
      split_ifs with h0
      · rfl
      · rw [hrest]
        rfl
  | cons d ds ih =>
    intro result i hall
    have hd := hall d (List.mem_cons_self _ _)
    obtain ⟨v, hv⟩ := Option.isSome_iff_exists.mp hd
    have hv16 : ¬ v ≥ 16 := by
      unfold hexDigit at hv
      split_ifs at hv with h1 h2 h3 <;> simp only [Option.some.injEq] at hv <;> omega
    have hd0 := (hexDigit_isSome d hd).1
    rw [List.cons_append, digitLoop, if_neg hd0, hv]
    simp only []
    rw [if_neg hv16, ih _ _ (fun c hc => hall c (List.mem_cons_of_mem _ hc)), List.length_cons]
    omega

/-- The index stored through `endptr` for a string made of blanks, an optional
hex prefix, hex digits and a remainder that does not start with a hex digit. -/
theorem StrtoulCompileTime_endptr (blanks pfx digits rest : List Nat)
    (hb : blanks.all isBlank = true)
    (hp : pfx = [] ∨ pfx = [chZero, chX] ∨ pfx = [chZero, chBigX])
    (hd : ∀ c ∈ digits, (hexDigit c).isSome = true)
    (hr : hexDigit (rest.getD 0 0) = none)
    (hnb : pfx = [] → isBlank ((digits ++ rest).getD 0 0) = false)
    (hnp : pfx = [] → ¬ ((digits ++ rest).getD 0 0 = chZero
      ∧ ((digits ++ rest).getD 1 0 = chX ∨ (digits ++ rest).getD 1 0 = chBigX))) :
    (StrtoulCompileTime (blanks ++ pfx ++ digits ++ rest) 16).2
      = if rest.getD 0 0 ≠ 0 then blanks.length + pfx.length + digits.length
        else blanks.length + pfx.length := by
  have hassoc : blanks ++ pfx ++ digits ++ rest = blanks ++ (pfx ++ (digits ++ rest)) := by
    simp only [List.append_assoc]
  have hblank : isBlank ((pfx ++ (digits ++ rest)).getD 0 0) = false := by
    rcases hp with h | h | h
    · subst h; exact hnb rfl
    · subst h; rfl
    · subst h; rfl
  have hi0 : skipLeadingWs (blanks ++ (pfx ++ (digits ++ rest))) = blanks.length :=
    skipLeadingWs_append _ hblank blanks hb
  have hg0 : (blanks ++ (pfx ++ (digits ++ rest))).getD blanks.length 0
      = (pfx ++ (digits ++ rest)).getD 0 0 := getD_append_length _ _
  have hg1 : (blanks ++ (pfx ++ (digits ++ rest))).getD (blanks.length + 1) 0
      = (pfx ++ (digits ++ rest)).getD 1 0 := getD_append_add _ _ 1
  have hend : ∀ p : List Nat, p = pfx →
      (blanks ++ (p ++ (digits ++ rest))).getD (blanks.length + p.length + digits.length) 0
        = rest.getD 0 0 := by
    intro p _
    have h1 : blanks ++ (p ++ (digits ++ rest)) = (blanks ++ p ++ digits) ++ rest := by
      simp only [List.append_assoc]
    have h2 : blanks.length + p.length + digits.length = (blanks ++ p ++ digits).length := by
      simp only [List.length_append]
    rw [h1, h2]
    exact getD_append_length _ _
  have hdrop : ∀ p : List Nat, p = pfx →
      (blanks ++ (p ++ (digits ++ rest))).drop (blanks.length + p.length) = digits ++ rest := by
    intro p _
    have h1 : blanks ++ (p ++ (digits ++ rest)) = (blanks ++ p) ++ (digits ++ rest) := by
      simp only [List.append_assoc]
    have h2 : blanks.length + p.length = (blanks ++ p).length := by
      simp only [List.length_append]
    rw [h1, h2, List.drop_left]
  rw [hassoc]
  unfold StrtoulCompileTime
  simp only [hi0, hg0, hg1]
  rcases hp with h | h | h
  · subst h
    have hno := hnp rfl
    simp only [List.nil_append] at hno ⊢
    have hcond : ¬ (True ∧ (digits ++ rest).getD 0 0 = chZero
        ∧ ((digits ++ rest).getD 1 0 = chX ∨ (digits ++ rest).getD 1 0 = chBigX)) :=
      fun h => hno h.2
    rw [if_neg hcond]
    have hdr := hdrop [] rfl
    have he := hend [] rfl
    simp only [List.nil_append, List.length_nil, Nat.add_zero] at hdr he
    rw [hdr, digitLoop_stop rest hr digits 0 _ hd, he]
    simp only [List.length_nil, Nat.add_zero]
  · subst h
    have hdr := hdrop [chZero, chX] rfl
    have he := hend [chZero, chX] rfl
    simp only [List.length_cons, List.length_nil] at hdr he
    have hcond : True ∧ ([chZero, chX] ++ (digits ++ rest)).getD 0 0 = chZero
        ∧ (([chZero, chX] ++ (digits ++ rest)).getD 1 0 = chX
          ∨ ([chZero, chX] ++ (digits ++ rest)).getD 1 0 = chBigX) := ⟨trivial, rfl, Or.inl rfl⟩
    rw [if_pos hcond, hdr, digitLoop_stop rest hr digits 0 _ hd, he]
    simp only [List.length_cons, List.length_nil]
  · subst h
    have hdr := hdrop [chZero, chBigX] rfl
    have he := hend [chZero, chBigX] rfl
    simp only [List.length_cons, List.length_nil] at hdr he
    have hcond : True ∧ ([chZero, chBigX] ++ (digits ++ rest)).getD 0 0 = chZero
        ∧ (([chZero, chBigX] ++ (digits ++ rest)).getD 1 0 = chX
          ∨ ([chZero, chBigX] ++ (digits ++ rest)).getD 1 0 = chBigX) := ⟨trivial, rfl, Or.inr rfl⟩
    rw [if_pos hcond, hdr, digitLoop_stop rest hr digits 0 _ hd, he]
    simp only [List.length_cons, List.length_nil]

/-- On the pattern `11 00 22` with mask `xxx` the scan, once at index 1 (the
exact slot that holds `0x00`), stays there: the inner `while` counts no
position, `i += subSeqLen - 1` steps back and the `++i` of the loop steps forth. -/
theorem scanLoop_zero_byte_diverges :
    ∀ fuel : Nat, scanLoop [0x11, 0, 0x22, 0] [120, 120, 120, 0] 3 fuel 1 0 1 = none := by
  intro fuel
  induction fuel with
  | zero => rfl
  | succ fuel ih => exact ih

/-! ## The constructor loop on a well-formed signature -/

theorem StrlenCompileTime_of_nonzero :
    ∀ S : List Nat, (∀ c ∈ S, c ≠ 0) → StrlenCompileTime S = S.length := by
  intro S
  induction S with
  | nil => intro _; rfl
  | cons c cs ih =>
    intro h
    rw [StrlenCompileTime, if_neg (h c (List.mem_cons_self _ _)),
      ih (fun d hd => h d (List.mem_cons_of_mem _ hd)), List.length_cons]

theorem isBlank_ne_zero (c : Nat) (h : isBlank c = true) : c ≠ 0 ∧ c ≠ chQ := by
  rcases (isBlank_iff c).mp h with h | h <;> (subst h; decide)

/-- The loop exits when the cursor is not before the last character. -/
theorem compileLoop_exit (S : List Nat) (len f x b : Nat) (cp mk : List Nat)
    (hx : ¬ x + 1 < len) :
    compileLoop S len (f + 1) x b cp mk = some (.done cp mk) := by
  rw [compileLoop, if_neg hx]

/-- One iteration on a blank. -/
theorem compileLoop_blank (S : List Nat) (len f x b : Nat) (cp mk : List Nat)
    (hx : x + 1 < len) (hc : isBlank (S.getD x 0) = true) :
    compileLoop S len (f + 1) x b cp mk = compileLoop S len f (x + 1) b cp mk := by
  rw [compileLoop, if_pos hx, if_pos ((isBlank_iff _).mp hc)]

/-- One iteration on `??`. -/
theorem compileLoop_wild2 (S : List Nat) (len f x b : Nat) (cp mk : List Nat)
    (hx : x + 1 < len) (h0 : S.getD x 0 = chQ) (h1 : S.getD (x + 1) 0 = chQ)
    (hb : b < cp.length) :
    compileLoop S len (f + 1) x b cp mk
      = compileLoop S len f (x + 2) (b + 1) (cp.set b 170) (mk.set b chQ) := by
  rw [compileLoop, if_pos hx, if_neg (by rw [h0]; decide), if_pos h0, if_pos hb, if_pos h1]

/-- One iteration on a `?` that is not followed by a second `?`. -/
theorem compileLoop_wild1 (S : List Nat) (len f x b : Nat) (cp mk : List Nat)
    (hx : x + 1 < len) (h0 : S.getD x 0 = chQ) (h1 : S.getD (x + 1) 0 ≠ chQ)
    (hb : b < cp.length) :
    compileLoop S len (f + 1) x b cp mk
      = compileLoop S len f (x + 1) (b + 1) (cp.set b 170) (mk.set b chQ) := by
  rw [compileLoop, if_pos hx, if_neg (by rw [h0]; decide), if_pos h0, if_pos hb, if_neg h1]

/-- One iteration on a character handed to the numeric parser. -/
theorem compileLoop_byte (S : List Nat) (len f x b : Nat) (cp mk : List Nat)
    (hx : x + 1 < len) (h0 : isBlank (S.getD x 0) = false) (h1 : S.getD x 0 ≠ chQ)
    (hb : b < cp.length) :
    compileLoop S len (f + 1) x b cp mk
      = compileLoop S len f (x + (StrtoulCompileTime (S.drop x) 16).2 + 1) (b + 1)
          (cp.set b ((StrtoulCompileTime (S.drop x) 16).1 % 256)) (mk.set b chX) := by
  have hnb : ¬ (S.getD x 0 = chSpace ∨ S.getD x 0 = chTab) := by
    rw [← isBlank_iff, h0]
    simp
  rw [compileLoop, if_pos hx, if_neg hnb, if_neg h1]
  simp only [if_pos hb]

/-- The digit loop returns its accumulator at a character that is no hex digit. -/
theorem digitLoop_no_digit (rest : List Nat) (result i : Nat)
    (hrest : hexDigit (rest.getD 0 0) = none) :
    digitLoop 16 rest result i = (result, i) := by
  cases rest with
  | nil => rfl
  | cons c cs =>
    simp only [List.getD_cons_zero] at hrest
    rw [digitLoop]
    split_ifs with h0
    · rfl
    · rw [hrest]

theorem hexDigit_lt (c v : Nat) (h : hexDigit c = some v) : v < 16 := by
  unfold hexDigit at h
  split_ifs at h with h1 h2 h3 <;> simp only [Option.some.injEq] at h <;> omega

/-- The numeric parser on a two-digit hex token followed by a blank or by the
end of the string: the value of the two digits, and the stopping point `2` or
(at the end of the string) the start `0`. -/
theorem StrtoulCompileTime_hex_token (hi lo : Nat) (tail : List Nat)
    (hhi : (hexDigit hi).isSome = true) (hlo : (hexDigit lo).isSome = true)
    (htail : hexDigit (tail.getD 0 0) = none) :
    StrtoulCompileTime (hi :: lo :: tail) 16
      = (16 * (hexDigit hi).getD 0 + (hexDigit lo).getD 0,
          if tail.getD 0 0 ≠ 0 then 2 else 0) := by
  obtain ⟨h0, h1, h2, h3, _, _⟩ := hexDigit_isSome hi hhi
  obtain ⟨l0, l1, l2, l3, l4, l5⟩ := hexDigit_isSome lo hlo
  obtain ⟨v1, hv1⟩ := Option.isSome_iff_exists.mp hhi
  obtain ⟨v2, hv2⟩ := Option.isSome_iff_exists.mp hlo
  have hv1lt := hexDigit_lt hi v1 hv1
  have hv2lt := hexDigit_lt lo v2 hv2
  have hws : skipLeadingWs (hi :: lo :: tail) = 0 := by
    rw [skipLeadingWs, if_neg (by tauto)]
  unfold StrtoulCompileTime
  simp only [hws, List.getD_cons_zero, Nat.zero_add, List.getD_cons_succ]
  rw [if_neg (by tauto)]
  simp only [List.drop_zero]
  rw [digitLoop, if_neg h0, hv1]
  simp only []
  rw [if_neg (by omega), digitLoop, if_neg l0, hv2]
  simp only []
  rw [if_neg (by omega), digitLoop_no_digit tail _ _ htail]
  simp only [hv1, hv2, Option.getD_some, List.getD_cons_succ, List.getD_cons_zero]
  have hval : ((0 * 16 + v1) % ULONG_MOD * 16 + v2) % ULONG_MOD = 16 * v1 + v2 := by
    unfold ULONG_MOD
    omega
  rw [hval]

theorem sigWF_cons (t : SigToken) (sep : List Nat) (rest : List (SigToken × List Nat))
    (hwf : sigWF ((t, sep) :: rest) = true) :
    t.wf = true ∧ sep.all isBlank = true ∧ (rest ≠ [] → sep ≠ []) ∧ sigWF rest = true := by
  cases rest with
  | nil =>
    simp only [sigWF, Bool.and_eq_true] at hwf
    exact ⟨hwf.1, hwf.2, fun h => absurd rfl h, rfl⟩
  | cons x rest =>
    simp only [sigWF, Bool.and_eq_true, Bool.not_eq_true', List.isEmpty_eq_false] at hwf
    exact ⟨hwf.1.1.1, hwf.1.1.2, fun _ => hwf.1.2, hwf.2⟩

theorem lastTokenOK_cons (t : SigToken) (sep : List Nat) (rest : List (SigToken × List Nat))
    (h : lastTokenOK ((t, sep) :: rest) = true) :
    lastTokenOK rest = true ∧ (rest = [] → t = .wild1 → sep ≠ []) := by
  cases rest with
  | nil =>
    refine ⟨rfl, fun _ ht hs => ?_⟩
    subst ht hs
    simp [lastTokenOK] at h
  | cons x rest =>
    simp only [lastTokenOK] at h
    exact ⟨h, fun hr => by cases hr⟩

/-- Writing slot `done.length` of an array whose written part is `done` and
whose rest is still zero. -/
theorem set_append_replicate (done : List Nat) (r v : Nat) (hr : 1 ≤ r) :
    (done ++ List.replicate r 0).set done.length v = (done ++ [v]) ++ List.replicate (r - 1) 0 := by
  obtain ⟨k, rfl⟩ : ∃ k, r = k + 1 := ⟨r - 1, by omega⟩
  simp [List.set_append, List.replicate_succ]

theorem hexDigit_of_blank (c : Nat) (h : isBlank c = true) : hexDigit c = none := by
  rcases (isBlank_iff c).mp h with h | h <;> (subst h; decide)

theorem sigChars_eq_nil (items : List (SigToken × List Nat)) (h : sigChars items = []) :
    items = [] := by
  cases items with
  | nil => rfl
  | cons it rest =>
    obtain ⟨t, sep⟩ := it
    cases t <;> simp [sigChars, SigToken.chars] at h

/-- Blanks are skipped: from the start of a run of blanks the loop does what it
does from the end of the run (or from the last character, when it exits among
the blanks). -/
theorem compileLoop_skip_blanks (S : List Nat) (b : Nat) (cp mk : List Nat) (suf : List Nat)
    (R : CompileResult) :
    ∀ (bl pre : List Nat) (fuel p : Nat), p = pre.length → S = pre ++ (bl ++ suf) →
      bl.all isBlank = true →
      (∀ fuel1, S.length - (p + bl.length) < fuel1 →
        compileLoop S S.length fuel1 (p + bl.length) b cp mk = some R) →
      S.length - p < fuel → compileLoop S S.length fuel p b cp mk = some R := by
  intro bl
  induction bl with
  | nil =>
    intro pre fuel p _ _ _ hcont hfuel
    exact hcont fuel (by simpa using hfuel)
  | cons c bs ih =>
    intro pre fuel p hp hS hbl hcont hfuel
    obtain ⟨f, rfl⟩ : ∃ f, fuel = f + 1 := ⟨fuel - 1, by omega⟩
    simp only [List.all_cons, Bool.and_eq_true] at hbl
    have hlen : S.length = p + 1 + bs.length + suf.length := by
      rw [hS, hp]
      simp only [List.length_append, List.length_cons]
      omega
    by_cases hx : p + 1 < S.length
    · have hget : S.getD p 0 = c := by
        rw [hS, hp, getD_append_length]
        rfl
      rw [compileLoop_blank _ _ _ _ _ _ _ hx (by rw [hget]; exact hbl.1)]
      refine ih (pre ++ [c]) f (p + 1) (by simp [hp]) (by rw [hS]; simp) hbl.2 ?_ (by omega)
      intro fuel1 h1
      have := hcont fuel1 (by simp only [List.length_cons]; omega)
      simp only [List.length_cons] at this
      rw [show p + 1 + bs.length = p + (bs.length + 1) by omega]
      exact this
    · rw [compileLoop_exit _ _ _ _ _ _ _ hx]
      have := hcont 1 (by simp only [List.length_cons]; omega)
      rw [compileLoop_exit _ _ _ _ _ _ _ (by simp only [List.length_cons]; omega)] at this
      exact this

/-- From the start of a token, the constructor loop writes one slot for every
remaining token of a well-formed signature whose final character is not a lone
`?`, and leaves the rest of the arrays zero. -/
theorem compileLoop_sigChars (S : List Nat) :
    ∀ (items : List (SigToken × List Nat)) (pre doneB doneM : List Nat) (r fuel p b : Nat),
      p = pre.length → b = doneB.length → S = pre ++ sigChars items →
      sigWF items = true → lastTokenOK items = true → doneB.length = doneM.length →
      items.length < r → S.length - p < fuel →
      compileLoop S S.length fuel p b (doneB ++ List.replicate r 0) (doneM ++ List.replicate r 0)
        = some (.done (doneB ++ slotBytes items ++ List.replicate (r - items.length) 0)
            (doneM ++ slotMasks items ++ List.replicate (r - items.length) 0)) := by
  intro items
  induction items with
  | nil =>
    intro pre doneB doneM r fuel p b hp _ hS _ _ _ _ hfuel
    obtain ⟨f, rfl⟩ : ∃ f, fuel = f + 1 := ⟨fuel - 1, by omega⟩
    have hlen : S.length = p := by rw [hS, hp]; simp [sigChars]
    rw [compileLoop_exit _ _ _ _ _ _ _ (by omega)]
    simp [slotBytes, slotMasks]
  | cons it rest ih =>
    obtain ⟨t, sep⟩ := it
    intro pre doneB doneM r fuel p b hp hb hS hwf hlast hdone hr hfuel
    obtain ⟨f, rfl⟩ : ∃ f, fuel = f + 1 := ⟨fuel - 1, by omega⟩
    obtain ⟨htw, hsep, hne, hwfrest⟩ := sigWF_cons t sep rest hwf
    obtain ⟨hlastrest, hlone⟩ := lastTokenOK_cons t sep rest hlast
    simp only [List.length_cons] at hr
    have hcap : b < (doneB ++ List.replicate r 0).length := by
      rw [List.length_append, List.length_replicate, hb]
      omega
    have hsetB : ∀ v, (doneB ++ List.replicate r 0).set b v
        = (doneB ++ [v]) ++ List.replicate (r - 1) 0 := by
      intro v
      rw [hb]
      exact set_append_replicate doneB r v (by omega)
    have hsetM : ∀ v, (doneM ++ List.replicate r 0).set b v
        = (doneM ++ [v]) ++ List.replicate (r - 1) 0 := by
      intro v
      rw [hb, hdone]
      exact set_append_replicate doneM r v (by omega)
    -- the continuation after the token: skip the blanks left, then the other tokens
    have hcont : ∀ (consumed bl : List Nat) (f1 q : Nat) (v m : Nat),
        S = (pre ++ consumed) ++ (bl ++ sigChars rest) → bl.all isBlank = true →
        q = p + consumed.length → S.length - q < f1 →
        v = t.byte → m = t.maskChar →
        compileLoop S S.length f1 q (b + 1) ((doneB ++ [v]) ++ List.replicate (r - 1) 0)
            ((doneM ++ [m]) ++ List.replicate (r - 1) 0)
          = some (.done (doneB ++ slotBytes ((t, sep) :: rest)
                ++ List.replicate (r - (rest.length + 1)) 0)
              (doneM ++ slotMasks ((t, sep) :: rest)
                ++ List.replicate (r - (rest.length + 1)) 0)) := by
      intro consumed bl f1 q v m hS1 hbl hq hf1 hv hm
      refine compileLoop_skip_blanks S _ _ _ (sigChars rest) _ bl (pre ++ consumed) f1 q
        (by rw [hq, hp, List.length_append]) hS1 hbl ?_ hf1
      intro fuel1 h1
      have := ih (pre ++ consumed ++ bl) (doneB ++ [v]) (doneM ++ [m]) (r - 1) fuel1
        (q + bl.length) (b + 1)
        (by rw [hq, hp]; simp only [List.length_append])
        (by rw [hb, List.length_append]; rfl)
        (by rw [hS1]; simp only [List.append_assoc])
        hwfrest hlastrest
        (by simp only [List.length_append, List.length_cons, List.length_nil]; omega)
        (by omega) h1
      rw [this, hv, hm]
      simp only [slotBytes, slotMasks, List.map_cons, List.append_assoc, List.singleton_append,
        Nat.sub_sub]
      rw [Nat.add_comm 1 rest.length]
    cases t with
    | hex hi lo =>
      simp only [SigToken.wf, Bool.and_eq_true] at htw
      obtain ⟨hhi, hlo⟩ := htw
      obtain ⟨h0, h1, h2, h3, _, _⟩ := hexDigit_isSome hi hhi
      have hS2 : S = pre ++ (hi :: lo :: (sep ++ sigChars rest)) := by
        rw [hS]; rfl
      have hlen : S.length = p + 2 + (sep ++ sigChars rest).length := by
        rw [hS2, hp]
        simp only [List.length_append, List.length_cons]
        omega
      have hget : S.getD p 0 = hi := by
        rw [hS2, hp, getD_append_length]; rfl
      have hdrop : S.drop p = hi :: lo :: (sep ++ sigChars rest) := by
        rw [hS2, hp, List.drop_left]
      have hnb : isBlank hi = false := by
        rw [Bool.eq_false_iff]
        intro hbk
        rcases (isBlank_iff hi).mp hbk with h | h
        · exact h1 h
        · exact h2 h
      have htail : hexDigit ((sep ++ sigChars rest).getD 0 0) = none := by
        cases sep with
        | nil =>
          have hr0 : rest = [] := by
            by_contra hr0
            exact hne hr0 rfl
          subst hr0
          rfl
        | cons c cs =>
          simp only [List.all_cons, Bool.and_eq_true] at hsep
          simpa using hexDigit_of_blank c hsep.1
      rw [compileLoop_byte _ _ _ _ _ _ _ (by omega) (by rw [hget]; exact hnb)
        (by rw [hget]; exact h3) hcap, hdrop,
        StrtoulCompileTime_hex_token hi lo _ hhi hlo htail]
      have hbyte : (16 * (hexDigit hi).getD 0 + (hexDigit lo).getD 0) % 256
          = (SigToken.hex hi lo).byte := by
        obtain ⟨v1, hv1⟩ := Option.isSome_iff_exists.mp hhi
        obtain ⟨v2, hv2⟩ := Option.isSome_iff_exists.mp hlo
        have := hexDigit_lt hi v1 hv1
        have := hexDigit_lt lo v2 hv2
        simp only [SigToken.byte, hv1, hv2, Option.getD_some]
        omega
      simp only [hbyte, hsetB, hsetM]
      cases sep with
      | nil =>
        have hr0 : rest = [] := by
          by_contra hr0
          exact hne hr0 rfl
        subst hr0
        simp only [sigChars, List.append_nil, List.getD_nil, ne_eq, not_true_eq_false,
          if_false, Nat.add_zero]
        simp only [sigChars, List.append_nil, List.length_nil, Nat.add_zero] at hlen
        obtain ⟨f2, rfl⟩ : ∃ f2, f = f2 + 1 := ⟨f - 1, by omega⟩
        rw [compileLoop_exit _ _ _ _ _ _ _ (by omega)]
        simp [slotBytes, slotMasks, SigToken.maskChar]
      | cons c cs =>
        simp only [List.all_cons, Bool.and_eq_true] at hsep
        have hc0 := (isBlank_ne_zero c hsep.1).1
        simp only [List.cons_append, List.getD_cons_zero, ne_eq, hc0, not_false_eq_true, if_true]
        exact hcont [hi, lo, c] cs f (p + 2 + 1) _ _
          (by rw [hS2]; simp only [List.append_assoc, List.cons_append, List.nil_append])
          hsep.2 (by simp only [List.length_cons, List.length_nil]) (by omega) rfl rfl
    | wild2 =>
      have hS2 : S = pre ++ (chQ :: chQ :: (sep ++ sigChars rest)) := by
        rw [hS]; rfl
      have hlen : S.length = p + 2 + (sep ++ sigChars rest).length := by
        rw [hS2, hp]
        simp only [List.length_append, List.length_cons]
        omega
      have hget0 : S.getD p 0 = chQ := by
        rw [hS2, hp, getD_append_length]; rfl
      have hget1 : S.getD (p + 1) 0 = chQ := by
        rw [hS2, hp, getD_append_add]; rfl
      rw [compileLoop_wild2 _ _ _ _ _ _ _ (by omega) hget0 hget1 hcap]
      simp only [hsetB, hsetM]
      exact hcont [chQ, chQ] sep f (p + 2) _ _
        (by rw [hS2]; simp only [List.append_assoc, List.cons_append, List.nil_append])
        hsep (by simp only [List.length_cons, List.length_nil]) (by omega) rfl rfl
    | wild1 =>
      have hsepne : sep ≠ [] := by
        by_cases hr0 : rest = []
        · exact hlone hr0 rfl
        · exact hne hr0
      obtain ⟨c, cs, rfl⟩ : ∃ c cs, sep = c :: cs := by
        cases sep with
        | nil => exact absurd rfl hsepne
        | cons c cs => exact ⟨c, cs, rfl⟩
      have hS2 : S = pre ++ (chQ :: ((c :: cs) ++ sigChars rest)) := by
        rw [hS]; rfl
      have hlen : S.length = p + 1 + ((c :: cs) ++ sigChars rest).length := by
        rw [hS2, hp]
        simp only [List.length_append, List.length_cons]
        omega
      have hlen2 : 1 ≤ ((c :: cs) ++ sigChars rest).length := by
        simp only [List.cons_append, List.length_cons]
        omega
      have hget0 : S.getD p 0 = chQ := by
        rw [hS2, hp, getD_append_length]; rfl
      have hget1 : S.getD (p + 1) 0 = c := by
        rw [hS2, hp, getD_append_add]; rfl
      have hcb : isBlank c = true := by
        simp only [List.all_cons, Bool.and_eq_true] at hsep
        exact hsep.1
      rw [compileLoop_wild1 _ _ _ _ _ _ _ (by omega) hget0
        (by rw [hget1]; exact (isBlank_ne_zero c hcb).2) hcap]
      simp only [hsetB, hsetM]
      exact hcont [chQ] (c :: cs) f (p + 1) _ _
        (by rw [hS2]; simp only [List.append_assoc, List.cons_append, List.nil_append])
        hsep (by simp only [List.length_cons, List.length_nil]) (by omega) rfl rfl

/-- The characters of a well-formed signature are not NUL. -/
theorem sigChars_ne_zero :
    ∀ items : List (SigToken × List Nat), sigWF items = true →
      ∀ c ∈ sigChars items, c ≠ 0 := by
  intro items
  induction items with
  | nil => intro _ c hc; simp [sigChars] at hc
  | cons it rest ih =>
    obtain ⟨t, sep⟩ := it
    intro hwf c hc
    obtain ⟨htw, hsep, _, hwfrest⟩ := sigWF_cons t sep rest hwf
    simp only [sigChars, List.mem_append] at hc
    rcases hc with (hc | hc) | hc
    · cases t with
      | hex hi lo =>
        simp only [SigToken.wf, Bool.and_eq_true] at htw
        simp only [SigToken.chars, List.mem_cons, List.mem_singleton, List.not_mem_nil,
          or_false] at hc
        rcases hc with rfl | rfl
        · exact (hexDigit_isSome _ htw.1).1
        · exact (hexDigit_isSome _ htw.2).1
      | wild1 =>
        simp only [SigToken.chars, List.mem_singleton] at hc
        subst hc; decide
      | wild2 =>
        simp only [SigToken.chars, List.mem_cons, List.mem_singleton, List.not_mem_nil,
          or_false, or_self] at hc
        subst hc; decide
    · exact (isBlank_ne_zero c (List.all_eq_true.mp hsep c hc)).1
    · exact ih hwfrest c hc

/-! ## The claims -/

/-- C1 (the code departs from the claim). Signature `90 90 ?? 90`, buffer
`90 90 90 90 90 90 55 55`: the pattern occurs at offsets 0, 1 and 2 only, so the
rightmost occurrence is 2, but `FindPattern` returns offset 4, where the last
pattern byte does not match (the verification loop stops before the last slot).
Also, signature `?? 11`, buffer `00 00 11`: the pattern occurs at offset 1, but
the cursor, which stands for the first byte of the anchor run, starts at
`dataLen - maskLen = 1` and never visits index 2, so not-found is returned. -/
theorem C1_rightmost_occurrence_not_returned :
    (mkContainer 16 [0x90, 0x90, 0xAA, 0x90, 0] [120, 120, 63, 120, 0]).bind
        (fun c => FindPattern c [0x90, 0x90, 0x90, 0x90, 0x90, 0x90, 0x55, 0x55] 8 16)
      = some (.found 4)
    ∧ occursAt [0x90, 0x90, 0xAA, 0x90, 0] [120, 120, 63, 120, 0]
        [0x90, 0x90, 0x90, 0x90, 0x90, 0x90, 0x55, 0x55] 4 2
    ∧ (∀ k < 9, occursAt [0x90, 0x90, 0xAA, 0x90, 0] [120, 120, 63, 120, 0]
        [0x90, 0x90, 0x90, 0x90, 0x90, 0x90, 0x55, 0x55] 4 k → k ≤ 2)
    ∧ (mkContainer 16 [0xAA, 0x11, 0] [63, 120, 0]).bind
        (fun c => FindPattern c [0x00, 0x00, 0x11] 3 16) = some .notFound
    ∧ occursAt [0xAA, 0x11, 0] [63, 120, 0] [0x00, 0x00, 0x11] 2 1 := by
  decide

/-- C2 (the code departs from the claim). Pattern `11 22` (both slots exact),
buffer `11 33`: `FindPattern` returns offset 0 although the exact position 1
holds `33` and not `22`, so the pattern does not occur at the returned offset. -/
theorem C2_returned_offset_is_no_occurrence :
    (mkContainer 16 [0x11, 0x22, 0] [120, 120, 0]).bind
        (fun c => FindPattern c [0x11, 0x33] 2 16) = some (.found 0)
    ∧ ¬ occursAt [0x11, 0x22, 0] [120, 120, 0] [0x11, 0x33] 2 0 := by
  decide

/-- C3 (the code departs from the claim). Exact-only pattern `DE AD BE`, buffer
`DE AD BE 00 DE AD 00`: the bytes appear verbatim at offset 0 and nowhere else,
but `FindPattern` returns offset 4. -/
theorem C3_unique_verbatim_occurrence_not_returned :
    (mkContainer 16 [0xDE, 0xAD, 0xBE, 0] [120, 120, 120, 0]).bind
        (fun c => FindPattern c [0xDE, 0xAD, 0xBE, 0x00, 0xDE, 0xAD, 0x00] 7 16)
      = some (.found 4)
    ∧ ∀ k < 8, occursAt [0xDE, 0xAD, 0xBE, 0] [120, 120, 120, 0]
        [0xDE, 0xAD, 0xBE, 0x00, 0xDE, 0xAD, 0x00] 3 k ↔ k = 0 := by
  decide

/-- C4 (the claim as stated is false). Pattern `11 22 33`, buffer `11` of length
1: `FindPattern` computes the wrapped start cursor `2^64 - 2` and reads
`data[2^64 - 2]`, outside the buffer, instead of returning not-found at once. -/
theorem C4_short_buffer_read_out_of_bounds :
    (mkContainer 16 [0x11, 0x22, 0x33, 0] [120, 120, 120, 0]).bind
        (fun c => FindPattern c [0x11] 1 16)
      = some (.outOfBounds 18446744073709551614) := by
  decide

/-- C4 (amended). `FindPattern` has no length guard: for a buffer shorter than
the pattern (`dataLen < maskLen < 2^64`) the start cursor is `dataLen - maskLen`
wrapped modulo `2^64`.  When `dataLen = maskLen - 1` the wrapped cursor is the
loop sentinel and not-found is returned whatever the buffer argument is (no
element is read); when `dataLen < maskLen - 1` the first cursor read
`data[2^64 + dataLen - maskLen]` is outside the buffer. -/
theorem C4_short_buffer_behaviour (c : CPatternContainer) (data : List Nat) (dataLen fuel : Nat)
    (hN : c.maskLen < SIZE_MOD) (hshort : dataLen < c.maskLen) :
    (dataLen + 1 = c.maskLen → ∀ buf : List Nat, FindPattern c buf dataLen (fuel + 1) = some .notFound)
    ∧ (dataLen + 1 < c.maskLen → data.length = dataLen →
        FindPattern c data dataLen (fuel + 1)
          = some (.outOfBounds (dataLen + SIZE_MOD - c.maskLen))) := by
  have hmod : (dataLen + SIZE_MOD - c.maskLen) % SIZE_MOD = dataLen + SIZE_MOD - c.maskLen :=
    Nat.mod_eq_of_lt (by omega)
  refine ⟨fun h1 buf => ?_, fun h2 hlen => ?_⟩
  · have hi : dataLen + SIZE_MOD - c.maskLen = PATTERN_ITERRATOR_MAX_INT := by
      simp only [SIZE_MOD, PATTERN_ITERRATOR_MAX_INT] at *
      omega
    unfold FindPattern
    rw [hmod, hi, findLoop, if_pos rfl]
  · have hi : dataLen + SIZE_MOD - c.maskLen ≠ PATTERN_ITERRATOR_MAX_INT := by
      simp only [SIZE_MOD, PATTERN_ITERRATOR_MAX_INT] at *
      omega
    have hread : data[dataLen + SIZE_MOD - c.maskLen]? = none := by
      rw [List.getElem?_eq_none_iff]
      omega
    unfold FindPattern
    rw [hmod, findLoop, if_neg hi, hread]

/-- Witness of C4 (amended): the container of the pattern `11 22 33` with a
buffer of length 2 (first part) and of length 1 (second part). -/
theorem C4_short_buffer_behaviour_witness :
    (∀ buf : List Nat,
        FindPattern ⟨0x11, [0x11, 0x22, 0x33, 0], [120, 120, 120, 0], 3, 0, 3, []⟩ buf 2 1
          = some .notFound)
    ∧ FindPattern ⟨0x11, [0x11, 0x22, 0x33, 0], [120, 120, 120, 0], 3, 0, 3, []⟩ [0x11] 1 1
          = some (.outOfBounds (1 + SIZE_MOD - 3)) :=
  ⟨(C4_short_buffer_behaviour ⟨0x11, [0x11, 0x22, 0x33, 0], [120, 120, 120, 0], 3, 0, 3, []⟩
      [0x11, 0x22] 2 0 (by decide) (by decide)).1 (by decide),
   (C4_short_buffer_behaviour ⟨0x11, [0x11, 0x22, 0x33, 0], [120, 120, 120, 0], 3, 0, 3, []⟩
      [0x11] 1 0 (by decide) (by decide)).2 (by decide) (by decide)⟩

/-- C5 (the code departs from the claim). Signature `22 ?? 11 33` (anchor run at
positions 2 and 3), buffer `11 00 00 00` of length 4: at cursor 0 the offset
`delta = 0 - 2` wraps to `2^64 - 2`, the bounds check lets it pass, and the
verification reads `data[2^64 - 2]`, outside the buffer. -/
theorem C5_verification_reads_out_of_bounds :
    (mkContainer 16 [0x22, 0xAA, 0x11, 0x33, 0] [120, 63, 120, 120, 0]).bind
        (fun c => FindPattern c [0x11, 0x00, 0x00, 0x00] 4 16)
      = some (.outOfBounds 18446744073709551614) := by
  decide

/-- C6 (the code departs from the claim). Signature `?? 11`, buffer `11 00` of
length 2: at cursor 0 the offset `delta = 0 - 1` wraps to `2^64 - 1`, the bounds
check lets it pass, and `FindPattern` returns `data + (2^64 - 1)`, one byte
before the buffer, instead of ending the search as not-found. -/
theorem C6_wrapped_offset_returned :
    (mkContainer 16 [0xAA, 0x11, 0] [63, 120, 0]).bind
        (fun c => FindPattern c [0x11, 0x00] 2 16)
      = some (.found 18446744073709551615)
    ∧ ¬ (18446744073709551615 + 2 ≤ [0x11, 0x00].length) := by
  decide

/-- C7 (the code departs from the claim). Signature `??` (no exact position,
anchor run of length 0), buffer `00 00`: the skip loop retreats the cursor by 0
for ever, so `FindPattern` returns nothing, whatever the fuel. -/
theorem C7_wildcard_only_pattern_diverges :
    compilePattern (cstr "??") 16 = some (.done [0xAA, 0] [63, 0])
    ∧ ∀ fuel : Nat,
        (mkContainer 16 [0xAA, 0] [63, 0]).bind (fun c => FindPattern c [0x00, 0x00] 2 fuel)
          = none := by
  refine ⟨by decide, fun fuel => ?_⟩
  have hc : mkContainer 16 [0xAA, 0] [63, 0]
      = some ⟨0xAA, [0xAA, 0], [63, 0], 1, 0, 0, List.replicate 256 0⟩ := by rfl
  rw [hc]
  cases fuel with
  | zero => rfl
  | succ fuel =>
    have hs := skipLoop_zero_step_diverges fuel
    show findLoop _ [0x00, 0x00] 2 0 (fuel + 1) 1 = none
    exact findLoop_of_skipLoop_none _ _ _ _ _ 1 0
      (by unfold PATTERN_ITERRATOR_MAX_INT; omega) rfl hs

/-- C8 (the code departs from the claim). The signature `48 ?` has two tokens,
and the sizing pass reserves two slots plus the terminator (`BufLen = 3`), but
the constructor loop stops before the last character and emits one slot only:
slot 1 keeps the zero mask instead of the wildcard mask. -/
theorem C8_trailing_wildcard_slot_missing :
    BufLen (cstr "48 ?") = 3
    ∧ compilePattern (cstr "48 ?") 16 = some (.done [0x48, 0, 0] [120, 0, 0])
    ∧ StrlenCompileTime [120, 0, 0] = 1 := by
  decide

/-- C9 (the code departs from the claim). The signatures `?` and `??` do not
compile to the same output: `??` gives one wildcard slot, `?` gives no slot at
all (both arrays stay zero). -/
theorem C9_single_and_double_wildcard_differ :
    compilePattern (cstr "?") 16 = some (.done [0, 0] [0, 0])
    ∧ compilePattern (cstr "??") 16 = some (.done [0xAA, 0] [63, 0])
    ∧ compilePattern (cstr "?") 16 ≠ compilePattern (cstr "??") 16 := by
  decide

/-- C10 (the claim as stated is false). The signatures `4G` and `ZZ 11` contain
a malformed character, yet the constructor completes and hands out arrays: `4G`
gives the exact slot `04`, and `ZZ 11` gives three exact slots `00 00 11`, one
for each offending `Z`. -/
theorem C10_malformed_signature_compiles :
    (∃ ch ∈ cstr "4G", malformedChar ch)
    ∧ compilePattern (cstr "4G") 16 = some (.done [0x04, 0] [120, 0])
    ∧ malformedChar ((cstr "ZZ 11").getD 0 0)
    ∧ compilePattern (cstr "ZZ 11") 16 = some (.done [0, 0, 0x11] [120, 120, 120]) := by
  decide

/-- C10 (amended). The constructor has no failure outcome for a malformed
character.  When its cursor stands, before the last character, on a character
that is neither space/tab, `?` nor a hex digit, and the slot index is inside the
arrays, it writes an exact slot with byte `0` for that character and resumes one
character later; with fuel for the characters left the loop returns, and when it
completes that slot still holds byte `0` with mask `x`. -/
theorem C10_malformed_char_emits_slot (S : List Nat) (len fuel currCh bufPos : Nat)
    (cp mk : List Nat) (hcur : currCh + 1 < len) (hbad : malformedChar (S.getD currCh 0))
    (hcap : bufPos < cp.length) (hmk : bufPos < mk.length) (hfuel : len - currCh ≤ fuel) :
    compileLoop S len (fuel + 1) currCh bufPos cp mk
        = compileLoop S len fuel (currCh + 1) (bufPos + 1) (cp.set bufPos 0) (mk.set bufPos chX)
    ∧ (compileLoop S len (fuel + 1) currCh bufPos cp mk).isSome = true
    ∧ ∀ cp1 mk1 : List Nat,
        compileLoop S len (fuel + 1) currCh bufPos cp mk = some (.done cp1 mk1) →
        cp1.getD bufPos 0 = 0 ∧ mk1.getD bufPos 0 = chX := by
  have hstep := compileLoop_malformed_step S len fuel currCh bufPos cp mk hcur hbad hcap
  refine ⟨hstep, compileLoop_isSome S len _ _ _ _ _ (by omega), fun cp1 mk1 hrun => ?_⟩
  rw [hstep] at hrun
  have hframe := compileLoop_frame S len _ _ _ _ _ _ _ hrun bufPos (by omega)
  rw [hframe.1, hframe.2]
  simp [List.getD_eq_getElem?_getD, List.getElem?_set, hcap, hmk]

/-- Witness of C10 (amended): the signature `ZZ 11` at its first character. -/
theorem C10_malformed_char_emits_slot_witness :
    compileLoop (cstr "ZZ 11") 5 6 0 0 [0, 0, 0] [0, 0, 0]
        = compileLoop (cstr "ZZ 11") 5 5 1 1 ([0, 0, 0].set 0 0) ([0, 0, 0].set 0 chX)
    ∧ (compileLoop (cstr "ZZ 11") 5 6 0 0 [0, 0, 0] [0, 0, 0]).isSome = true
    ∧ ∀ cp1 mk1 : List Nat,
        compileLoop (cstr "ZZ 11") 5 6 0 0 [0, 0, 0] [0, 0, 0] = some (.done cp1 mk1) →
        cp1.getD 0 0 = 0 ∧ mk1.getD 0 0 = chX :=
  C10_malformed_char_emits_slot (cstr "ZZ 11") 5 5 0 0 [0, 0, 0] [0, 0, 0]
    (by decide) (by decide) (by decide) (by decide) (by decide)

/-- C11 (the code departs from the claim). Signature `11 00 22` compiles to the
bytes `11 00 22` with mask `xxx`; on this pair the constructor of
`CPatternContainer` never returns, whatever the fuel: the scan stalls on the
exact slot that holds the byte `0x00`. -/
theorem C11_exact_zero_byte_scan_diverges :
    compilePattern (cstr "11 00 22") 16 = some (.done [0x11, 0, 0x22, 0] [120, 120, 120, 0])
    ∧ ∀ fuel : Nat, mkContainer fuel [0x11, 0, 0x22, 0] [120, 120, 120, 0] = none := by
  refine ⟨by decide, fun fuel => ?_⟩
  cases fuel with
  | zero => rfl
  | succ f =>
    have h : scanLoop [0x11, 0, 0x22, 0] [120, 120, 120, 0]
        (StrlenCompileTime [120, 120, 120, 0]) (f + 1) 0 0 0 = none :=
      scanLoop_zero_byte_diverges f
    rw [mkContainer]
    simp only [h]

/-- C12. For the anchor run `(start, len)` stored by `CPatternContainer`, entry
`v` of `byteMask` (for every byte value `v`) is set, that is `1`, if and only if
the byte `pattern[i]` is `v` for some `i` in `[start, start + len)`, and is `0`
otherwise; every entry is clear when `len = 0`; `longestSeqFirstChar` is the
byte `pattern[start]`, and its entry is set when `len >= 1`. -/
theorem C12_byteMask_characterisation (fuel : Nat) (pattern mask : List Nat)
    (c : CPatternContainer) (hc : mkContainer fuel pattern mask = some c) :
    (∀ v < 256, (c.byteMask.getD v 0 = 1 ↔
        ∃ i, c.longestSeqStart ≤ i ∧ i < c.longestSeqStart + c.longestSeqLen
          ∧ pattern.getD i 0 % 256 = v))
    ∧ (∀ v < 256, c.byteMask.getD v 0 = 0 ∨ c.byteMask.getD v 0 = 1)
    ∧ (c.longestSeqLen = 0 → ∀ v < 256, c.byteMask.getD v 0 = 0)
    ∧ c.longestSeqFirstChar = pattern.getD c.longestSeqStart 0 % 256
    ∧ (1 ≤ c.longestSeqLen → c.byteMask.getD c.longestSeqFirstChar 0 = 1) := by
  obtain ⟨_, _, _, _, hfirst, hbm⟩ := mkContainer_some fuel pattern mask c hc
  have hget := fun v hv => PopulateByteMask_getD pattern c.longestSeqStart c.longestSeqLen v hv
  rw [← hbm] at hget
  refine ⟨fun v hv => ?_, fun v hv => ?_, fun h0 v hv => ?_, hfirst, fun h1 => ?_⟩
  · constructor
    · intro h1
      by_contra hno
      rw [(hget v hv).2 hno] at h1
      exact absurd h1 (by decide)
    · exact (hget v hv).1
  · by_cases h : ∃ i, c.longestSeqStart ≤ i ∧ i < c.longestSeqStart + c.longestSeqLen
        ∧ pattern.getD i 0 % 256 = v
    · exact Or.inr ((hget v hv).1 h)
    · exact Or.inl ((hget v hv).2 h)
  · apply (hget v hv).2
    rintro ⟨i, h1, h2, _⟩
    omega
  · apply (hget _ (by rw [hfirst]; exact Nat.mod_lt _ (by decide))).1
    exact ⟨c.longestSeqStart, le_refl _, by omega, hfirst.symm⟩

/-- Witness of C12: the container of the pattern `11 22` (anchor run `(0, 2)`). -/
theorem C12_byteMask_characterisation_witness :
    (∀ v < 256, ((PopulateByteMask [0x11, 0x22, 0] 0 2 (List.replicate 256 0)).getD v 0 = 1 ↔
        ∃ i, 0 ≤ i ∧ i < 0 + 2 ∧ [0x11, 0x22, 0].getD i 0 % 256 = v))
    ∧ (∀ v < 256, (PopulateByteMask [0x11, 0x22, 0] 0 2 (List.replicate 256 0)).getD v 0 = 0
        ∨ (PopulateByteMask [0x11, 0x22, 0] 0 2 (List.replicate 256 0)).getD v 0 = 1)
    ∧ (2 = 0 → ∀ v < 256,
        (PopulateByteMask [0x11, 0x22, 0] 0 2 (List.replicate 256 0)).getD v 0 = 0)
    ∧ 0x11 = [0x11, 0x22, 0].getD 0 0 % 256
    ∧ (1 ≤ 2 → (PopulateByteMask [0x11, 0x22, 0] 0 2 (List.replicate 256 0)).getD 0x11 0 = 1) :=
  C12_byteMask_characterisation 16 [0x11, 0x22, 0] [120, 120, 0]
    ⟨0x11, [0x11, 0x22, 0], [120, 120, 0], 2, 0, 2,
      PopulateByteMask [0x11, 0x22, 0] 0 2 (List.replicate 256 0)⟩ rfl

/-- C13. For a well-formed signature of `n` tokens (each two hex digits, `?` or
`??`, separated by spaces/tabs), the sizing pass counts two units per token:
`CalcBufSize(S) = 2 n`, so `CalcBufSize(S) / 2 = n` and `BufLen() = n + 1`;
blanks and the second `?` of `??` contribute nothing. -/
theorem C13_sizing_counts_slots (items : List (SigToken × List Nat))
    (hwf : sigWF items = true) :
    CalcBufSize (sigChars items) false = 2 * items.length
    ∧ CalcBufSize (sigChars items) false / 2 = items.length
    ∧ BufLen (sigChars items) = items.length + 1 := by
  have h := CalcBufSize_sigChars items hwf
  refine ⟨h, ?_, ?_⟩
  · rw [h]; omega
  · unfold BufLen
    rw [h]; omega

/-- Witness of C13: the signature `48 8B ?? ? 05` (five tokens, the wildcards
separated by a tab). -/
theorem C13_sizing_counts_slots_witness :
    CalcBufSize (sigChars [(.hex 52 56, [32]), (.hex 56 66, [32]), (.wild2, [9]),
        (.wild1, [32, 32]), (.hex 48 53, [])]) false = 2 * 5
    ∧ CalcBufSize (sigChars [(.hex 52 56, [32]), (.hex 56 66, [32]), (.wild2, [9]),
        (.wild1, [32, 32]), (.hex 48 53, [])]) false / 2 = 5
    ∧ BufLen (sigChars [(.hex 52 56, [32]), (.hex 56 66, [32]), (.wild2, [9]),
        (.wild1, [32, 32]), (.hex 48 53, [])]) = 5 + 1 :=
  C13_sizing_counts_slots [(.hex 52 56, [32]), (.hex 56 66, [32]), (.wild2, [9]),
    (.wild1, [32, 32]), (.hex 48 53, [])] (by decide)

/-- C14 (the code departs from the claim). Mask `?` (no exact position), byte
arrays `AA` and `BB` (they differ in the wildcard slot only), buffer `AA` of
length 1: with the first array `FindPattern` returns offset 0, with the second
it returns not-found, because `longestSeqFirstChar` is the placeholder of slot 0
and is compared with the buffer byte. -/
theorem C14_placeholder_is_compared :
    (mkContainer 16 [0xAA, 0] [63, 0]).bind (fun c => FindPattern c [0xAA] 1 16)
      = some (.found 0)
    ∧ (mkContainer 16 [0xBB, 0] [63, 0]).bind (fun c => FindPattern c [0xAA] 1 16)
      = some .notFound := by
  decide

/-- C15 (the claim as stated is false). For the string `8B` the digit loop stops
at index 2, the end of the string, but the index stored through `endptr` is 0,
the position of the first digit, not the stopping point. -/
theorem C15_endptr_at_end_of_string :
    digitLoop 16 (cstr "8B") 0 0 = (0x8B, 2)
    ∧ StrtoulCompileTime (cstr "8B") 16 = (0x8B, 0) := by
  decide

/-- C15 (amended). For a string made of leading spaces/tabs, an optional
`0x`/`0X` prefix, hex digits and a remainder that does not start with a hex
digit: when the digits are followed by a character other than NUL,
`StrtoulCompileTime` stores through `endptr` the index just past the last hex
digit; when the digits run to the end of the string it stores `start`, the index
just past the blanks and the prefix (the position of the first digit), not its
stopping point. -/
theorem C15_endptr_reported (blanks pfx digits rest : List Nat)
    (hb : blanks.all isBlank = true)
    (hp : pfx = [] ∨ pfx = [chZero, chX] ∨ pfx = [chZero, chBigX])
    (hd : ∀ c ∈ digits, (hexDigit c).isSome = true)
    (hr : hexDigit (rest.getD 0 0) = none)
    (hnb : pfx = [] → isBlank ((digits ++ rest).getD 0 0) = false)
    (hnp : pfx = [] → ¬ ((digits ++ rest).getD 0 0 = chZero
      ∧ ((digits ++ rest).getD 1 0 = chX ∨ (digits ++ rest).getD 1 0 = chBigX))) :
    (rest.getD 0 0 ≠ 0 →
        (StrtoulCompileTime (blanks ++ pfx ++ digits ++ rest) 16).2
          = blanks.length + pfx.length + digits.length)
    ∧ (rest.getD 0 0 = 0 →
        (StrtoulCompileTime (blanks ++ pfx ++ digits ++ rest) 16).2
          = blanks.length + pfx.length) := by
  have h := StrtoulCompileTime_endptr blanks pfx digits rest hb hp hd hr hnb hnp
  constructor
  · intro h0
    rw [h, if_pos h0]
  · intro h0
    rw [h, if_neg (by simpa using h0)]

/-- Witness of C15 (amended): the strings ` 0x8B ?` (digits followed by a
blank) and ` 0x8B` (digits up to the end of the string). -/
theorem C15_endptr_reported_witness :
    (StrtoulCompileTime ([32] ++ [chZero, chX] ++ [56, 66] ++ [32, 63]) 16).2 = 1 + 2 + 2
    ∧ (StrtoulCompileTime ([32] ++ [chZero, chX] ++ [56, 66] ++ []) 16).2 = 1 + 2 :=
  ⟨(C15_endptr_reported [32] [chZero, chX] [56, 66] [32, 63] (by decide)
      (Or.inr (Or.inl rfl)) (by decide) (by decide) (by decide) (by decide)).1 (by decide),
   (C15_endptr_reported [32] [chZero, chX] [56, 66] [] (by decide)
      (Or.inr (Or.inl rfl)) (by decide) (by decide) (by decide) (by decide)).2 (by decide)⟩

/-- C16. For a container built by `CPatternContainer` whose anchor run
`(start, len)` has `len >= 1`, and a buffer with `maskLen <= dataLen < 2^64`: if
the pattern occurs at offset `k` and `k + start <= dataLen - maskLen`, then
`FindPattern` returns (with `dataLen + 2` units of fuel) an offset, and that
offset is at least `k`; it neither ends as not-found nor reads out of bounds. -/
theorem C16_relative_completeness (fuel0 fuel : Nat) (pattern mask data : List Nat)
    (dataLen k : Nat) (c : CPatternContainer)
    (hc : mkContainer fuel0 pattern mask = some c)
    (hbytes : ∀ j < c.maskLen, pattern.getD j 0 < 256)
    (hL : 1 ≤ c.longestSeqLen) (hdata : data.length = dataLen) (hlen : dataLen < SIZE_MOD)
    (hocc : occursAt pattern mask data c.maskLen k)
    (hk : k + c.longestSeqStart + c.maskLen ≤ dataLen) (hfuel : dataLen + 2 ≤ fuel) :
    ∃ d, FindPattern c data dataLen fuel = some (.found d) ∧ k ≤ d := by
  obtain ⟨_, hpat, hmask, _, hfirst, hbm⟩ := mkContainer_some fuel0 pattern mask c hc
  obtain ⟨hrun, hsl⟩ := mkContainer_run fuel0 pattern mask c hc hL
  obtain ⟨_, hmatch⟩ := hocc
  have hN1 : 1 ≤ c.maskLen := by omega
  unfold FindPattern
  rw [decr_pos_eq _ hN1 (by omega), sub_wrap_of_le _ _ (by omega) (by omega)]
  refine findLoop_complete c data dataLen k hL hdata hlen ?_ ?_ ?_ fuel _ (by omega) (by omega)
    hN1 (by omega)
  · intro t ht
    refine ⟨pattern.getD (c.longestSeqStart + t) 0, ?_, ?_⟩
    · rw [Nat.add_assoc]
      exact hmatch _ (by omega) (hrun t ht).1
    · have hlt := hbytes (c.longestSeqStart + t) (by omega)
      rw [hbm, (PopulateByteMask_getD pattern c.longestSeqStart c.longestSeqLen _ hlt).1
        ⟨c.longestSeqStart + t, by omega, by omega, Nat.mod_eq_of_lt hlt⟩]
      decide
  · rw [hfirst, Nat.mod_eq_of_lt (hbytes _ (by omega))]
    have := hmatch c.longestSeqStart (by omega) (by simpa using (hrun 0 (by omega)).1)
    exact this
  · intro j hj hx
    rw [hpat, Nat.mod_eq_of_lt (hbytes _ (by omega))]
    rw [hmask] at hx
    exact hmatch j (by omega) hx

/-- Witness of C16: signature `11 ?? 33` (anchor run `(0, 1)`), buffer
`00 11 99 33 00`, occurrence at offset 1. -/
theorem C16_relative_completeness_witness :
    ∃ d, FindPattern
        ⟨0x11, [0x11, 0xAA, 0x33, 0], [120, 63, 120, 0], 3, 0, 1,
          PopulateByteMask [0x11, 0xAA, 0x33, 0] 0 1 (List.replicate 256 0)⟩
        [0x00, 0x11, 0x99, 0x33, 0x00] 5 7 = some (.found d) ∧ 1 ≤ d :=
  C16_relative_completeness 16 7 [0x11, 0xAA, 0x33, 0] [120, 63, 120, 0]
    [0x00, 0x11, 0x99, 0x33, 0x00] 5 1
    ⟨0x11, [0x11, 0xAA, 0x33, 0], [120, 63, 120, 0], 3, 0, 1,
      PopulateByteMask [0x11, 0xAA, 0x33, 0] 0 1 (List.replicate 256 0)⟩
    rfl (by decide) (by decide) rfl (by unfold SIZE_MOD; decide) (by decide) (by decide)
    (by decide)

/-- C17. Whenever `FindPattern` returns an offset `d` that did not wrap
(`d + longestSeqStart < 2^64`, that is `d = i - longestSeqStart` for a cursor
`i >= longestSeqStart`), the buffer holds `longestSeqFirstChar` at
`d + longestSeqStart` and the pattern byte at `d + j` for every exact position
`j < maskLen - 1`, the positions the verification loop runs over. -/
theorem C17_found_offset_guarantee (c : CPatternContainer) (data : List Nat) (dataLen fuel d : Nat)
    (hdata : data.length = dataLen) (hlen : dataLen < SIZE_MOD) (hN : c.maskLen < SIZE_MOD)
    (hret : FindPattern c data dataLen fuel = some (.found d))
    (hnowrap : d + c.longestSeqStart < SIZE_MOD) :
    data[d + c.longestSeqStart]? = some c.longestSeqFirstChar
    ∧ ∀ j, j + 1 < c.maskLen → c.mask.getD j 0 = chX →
        data[d + j]? = some (c.pattern.getD j 0 % 256) := by
  unfold FindPattern at hret
  obtain ⟨hi0, i1, hle, hb, hd, hchk, hv⟩ := findLoop_found _ _ _ _ _ _ _ hret
  have hi1 : i1 < data.length := by
    by_contra hge
    rw [List.getElem?_eq_none (by omega)] at hb
    simp at hb
  have hNle : c.maskLen ≤ dataLen := by
    by_contra hlt
    rw [sub_wrap_of_lt _ _ (by omega) (by omega)] at hi0
    omega
  rw [sub_wrap_of_le _ _ hNle (by omega)] at hle
  have hs : c.longestSeqStart ≤ i1 := by
    by_contra hlt
    rw [sub_wrap_of_lt _ _ (by omega) (by omega)] at hd
    omega
  rw [sub_wrap_of_le _ _ hs (by omega)] at hd
  refine ⟨?_, fun j hj hx => ?_⟩
  · rw [hd, Nat.sub_add_cancel hs]
    exact hb
  · rw [decr_pos_eq _ (by omega) (by omega)] at hv
    have := verifyLoop_true _ _ _ _ _ _ hv j (by omega) (by omega) hx
    rwa [Nat.mod_eq_of_lt (by omega)] at this

/-- Witness of C17: pattern `11 22`, buffer `11 33`; offset 0 is returned, the
first byte matches, and the last slot is not among the compared positions. -/
theorem C17_found_offset_guarantee_witness :
    [0x11, 0x33][0 + 0]? = some 0x11
    ∧ ∀ j, j + 1 < 2 → [120, 120, 0].getD j 0 = chX →
        [0x11, 0x33][0 + j]? = some ([0x11, 0x22, 0].getD j 0 % 256) :=
  C17_found_offset_guarantee
    ⟨0x11, [0x11, 0x22, 0], [120, 120, 0], 2, 0, 2,
      PopulateByteMask [0x11, 0x22, 0] 0 2 (List.replicate 256 0)⟩
    [0x11, 0x33] 2 16 0 rfl (by unfold SIZE_MOD; omega) (by unfold SIZE_MOD; decide)
    (by decide) (by unfold SIZE_MOD; decide)

/-- C18. For a pattern/mask pair (mask length `N = StrlenCompileTime mask`) in
which no exact slot holds the byte `0x00`, the constructor scan terminates
(`N + 1` units of fuel are enough) and stores a run `(start, len)` such that:
when `len >= 1` the positions `[start, start + len)` are all exact and inside
the mask; no block of exact positions of the mask is longer than `len`, and a
block of length `len` does not start before `start`; `start = 0` and `len = 0`
when the mask has no exact position; and `longestSeqFirstChar` is the byte
`pattern[start]`. -/
theorem C18_scan_stores_longest_run (fuel : Nat) (pattern mask : List Nat)
    (hNM : StrlenCompileTime mask < SIZE_MOD)
    (hzero : ∀ j < StrlenCompileTime mask, mask.getD j 0 = chX → pattern.getD j 0 ≠ 0)
    (hfuel : StrlenCompileTime mask < fuel) :
    ∃ c, mkContainer fuel pattern mask = some c
      ∧ c.maskLen = StrlenCompileTime mask
      ∧ (1 ≤ c.longestSeqLen → allExact mask c.longestSeqStart c.longestSeqLen
          ∧ c.longestSeqStart + c.longestSeqLen ≤ c.maskLen)
      ∧ (∀ a m, a + m ≤ c.maskLen → allExact mask a m →
          m ≤ c.longestSeqLen ∧ (m = c.longestSeqLen → 1 ≤ m → c.longestSeqStart ≤ a))
      ∧ ((∀ j < c.maskLen, mask.getD j 0 ≠ chX) → c.longestSeqStart = 0 ∧ c.longestSeqLen = 0)
      ∧ c.longestSeqFirstChar = pattern.getD c.longestSeqStart 0 % 256 := by
  obtain ⟨c, hc, hinv1, hinv2, hinv3⟩ := mkContainer_spec fuel pattern mask hNM hzero hfuel
  obtain ⟨_, _, _, hlen, hfirst, _⟩ := mkContainer_some fuel pattern mask c hc
  refine ⟨c, hc, hlen, ?_, ?_, ?_, hfirst⟩
  · rw [hlen]
    exact hinv2
  · rw [hlen]
    intro a m ham hall
    rcases Nat.lt_or_ge a (StrlenCompileTime mask) with hlt | hge
    · exact hinv3 a m hlt hall
    · exact ⟨by omega, fun _ h => by omega⟩
  · rw [hlen]
    intro hno
    have hl : c.longestSeqLen = 0 := by
      by_contra hne
      obtain ⟨hall, hle⟩ := hinv2 (by omega)
      have := hall 0 (by omega)
      rw [Nat.add_zero] at this
      exact hno _ (by omega) this
    exact ⟨hinv1 hl, hl⟩

/-- Witness of C18: the pattern `90 90 ?? 90` with mask `xx?x`. -/
theorem C18_scan_stores_longest_run_witness :
    ∃ c, mkContainer 16 [0x90, 0x90, 0xAA, 0x90, 0] [120, 120, 63, 120, 0] = some c
      ∧ c.maskLen = StrlenCompileTime [120, 120, 63, 120, 0]
      ∧ (1 ≤ c.longestSeqLen → allExact [120, 120, 63, 120, 0] c.longestSeqStart c.longestSeqLen
          ∧ c.longestSeqStart + c.longestSeqLen ≤ c.maskLen)
      ∧ (∀ a m, a + m ≤ c.maskLen → allExact [120, 120, 63, 120, 0] a m →
          m ≤ c.longestSeqLen ∧ (m = c.longestSeqLen → 1 ≤ m → c.longestSeqStart ≤ a))
      ∧ ((∀ j < c.maskLen, [120, 120, 63, 120, 0].getD j 0 ≠ chX) →
          c.longestSeqStart = 0 ∧ c.longestSeqLen = 0)
      ∧ c.longestSeqFirstChar = [0x90, 0x90, 0xAA, 0x90, 0].getD c.longestSeqStart 0 % 256 :=
  C18_scan_stores_longest_run 16 [0x90, 0x90, 0xAA, 0x90, 0] [120, 120, 63, 120, 0]
    (by unfold SIZE_MOD; decide) (by decide) (by decide)

/-- C19. For a container whose anchor run has length at least one and a buffer
with `maskLen <= dataLen`, `FindPattern` returns: `dataLen + 2` units of fuel
are enough.  The skip loop, when it exits, has not moved the cursor up and has
kept a positive cursor positive; every outer iteration returns or decrements the
cursor, and the cursor that wraps below zero is the loop sentinel. -/
theorem C19_FindPattern_terminates (c : CPatternContainer) (data : List Nat) (dataLen fuel : Nat)
    (hL : 1 ≤ c.longestSeqLen) (hN1 : 1 ≤ c.maskLen) (hN : c.maskLen ≤ dataLen)
    (hfuel : dataLen + 2 ≤ fuel) :
    (∃ r, FindPattern c data dataLen fuel = some r)
    ∧ ∀ f i ch w i1 c1, skipLoop c.byteMask c.longestSeqLen data f i ch w = some (.ok (i1, c1)) →
        i1 ≤ i ∧ (0 < i → 0 < i1) := by
  constructor
  · unfold FindPattern
    apply findLoop_returns c data dataLen _ hL
    have h1 : dataLen + SIZE_MOD - c.maskLen = (dataLen - c.maskLen) + SIZE_MOD := by omega
    have h2 : (dataLen + SIZE_MOD - c.maskLen) % SIZE_MOD ≤ dataLen - c.maskLen := by
      rw [h1, Nat.add_mod_right]
      exact Nat.mod_le _ _
    omega
  · intro f i ch w i1 c1 h
    obtain ⟨h1, h2, _⟩ := skipLoop_ok_spec _ _ _ _ _ _ _ _ _ h
    exact ⟨h1, h2⟩

/-- Witness of C19: the container of the pattern `11 22` on the buffer `33 11 44`. -/
theorem C19_FindPattern_terminates_witness :
    (∃ r, FindPattern
        ⟨0x11, [0x11, 0x22, 0], [120, 120, 0], 2, 0, 2,
          PopulateByteMask [0x11, 0x22, 0] 0 2 (List.replicate 256 0)⟩
        [0x33, 0x11, 0x44] 3 5 = some r)
    ∧ ∀ f i ch w i1 c1,
        skipLoop (PopulateByteMask [0x11, 0x22, 0] 0 2 (List.replicate 256 0)) 2
          [0x33, 0x11, 0x44] f i ch w = some (.ok (i1, c1)) →
        i1 ≤ i ∧ (0 < i → 0 < i1) :=
  C19_FindPattern_terminates
    ⟨0x11, [0x11, 0x22, 0], [120, 120, 0], 2, 0, 2,
      PopulateByteMask [0x11, 0x22, 0] 0 2 (List.replicate 256 0)⟩
    [0x33, 0x11, 0x44] 3 5 (by decide) (by decide) (by decide) (by decide)

/-- C20. For a signature of `n >= 1` tokens (two hex digits in either case, `?`
or `??`) separated by one or more spaces/tabs, whose final character is not a
lone `?` token (the last token is a hex byte or `??`, or blanks follow it), the
constructor returns (fuel above the length of the signature is enough) with
exactly `n` slots: slot `k` holds the byte value of token `k` with mask `x` for
a hex token, and the placeholder `0xAA` with mask `?` for a wildcard token; the
arrays have `BufLen() = n + 1` elements and the terminator slot at index `n` is
still zero in both. -/
theorem C20_constructor_emits_slots (items : List (SigToken × List Nat)) (fuel : Nat)
    (_hne : items ≠ []) (hwf : sigWF items = true) (hlast : lastTokenOK items = true)
    (hfuel : (sigChars items).length < fuel) :
    compilePattern (sigChars items) fuel
      = some (.done (slotBytes items ++ [0]) (slotMasks items ++ [0]))
    ∧ BufLen (sigChars items) = items.length + 1
    ∧ (slotBytes items).length = items.length ∧ (slotMasks items).length = items.length
    ∧ ∀ k t sep, items[k]? = some (t, sep) →
        (slotBytes items).getD k 0 = t.byte ∧ (slotMasks items).getD k 0 = t.maskChar := by
  have hbuf : BufLen (sigChars items) = items.length + 1 := by
    unfold BufLen
    rw [CalcBufSize_sigChars items hwf]
    omega
  refine ⟨?_, hbuf, by simp [slotBytes], by simp [slotMasks], ?_⟩
  · unfold compilePattern
    rw [StrlenCompileTime_of_nonzero _ (sigChars_ne_zero items hwf), hbuf]
    have := compileLoop_sigChars (sigChars items) items [] [] [] (items.length + 1) fuel 0 0
      rfl rfl rfl hwf hlast rfl (by omega) (by omega)
    simpa using this
  · intro k t sep hk
    simp [slotBytes, slotMasks, List.getD_eq_getElem?_getD, List.getElem?_map, hk]

/-- Witness of C20: the signature `48 8B ??`, a tab, `?`, two spaces, `05`. -/
theorem C20_constructor_emits_slots_witness :
    compilePattern (sigChars [(.hex 52 56, [32]), (.hex 56 66, [32]), (.wild2, [9]),
        (.wild1, [32, 32]), (.hex 48 53, [])]) 20
      = some (.done
          (slotBytes [(.hex 52 56, [32]), (.hex 56 66, [32]), (.wild2, [9]),
            (.wild1, [32, 32]), (.hex 48 53, [])] ++ [0])
          (slotMasks [(.hex 52 56, [32]), (.hex 56 66, [32]), (.wild2, [9]),
            (.wild1, [32, 32]), (.hex 48 53, [])] ++ [0]))
    ∧ slotBytes [(.hex 52 56, [32]), (.hex 56 66, [32]), (.wild2, [9]),
        (.wild1, [32, 32]), (.hex 48 53, [])] = [0x48, 0x8B, 0xAA, 0xAA, 0x05]
    ∧ slotMasks [(.hex 52 56, [32]), (.hex 56 66, [32]), (.wild2, [9]),
        (.wild1, [32, 32]), (.hex 48 53, [])] = [120, 120, 63, 63, 120] :=
  ⟨(C20_constructor_emits_slots [(.hex 52 56, [32]), (.hex 56 66, [32]), (.wild2, [9]),
      (.wild1, [32, 32]), (.hex 48 53, [])] 20 (by decide) (by decide) (by decide)
      (by decide)).1, by decide, by decide⟩

end lpm
